import Mathlib

/-!
Program `dribble`: mount-table lookup and heartbeat writer.

A shallow embedding of `src/dribble.c`.

Conventions of the embedding.

* A byte (`char`) is a `Nat`; a byte buffer is a `List Nat`.  Where the C code
  narrows an integer to `char` the value is reduced modulo 256 explicitly.
* A C string held in a buffer is the run of bytes before the first NUL
  (`cstr`).  Arguments that the program only ever handles as C strings
  (`opt.label`, `opt.hole`, the elements of `argv`) are given by their contents.
* A line delivered by `getline` is the list of bytes read; the buffer holding
  it is that list followed by the terminating NUL.  A pointer into the line is
  an offset into that buffer.
* `exit` is an explicit result: functions that may call `die` return a sum.
* The results of system calls (`fopen`, `realpath`, `open`, `write`, the
  contents of `malloc`ed memory) are parameters.
-/

namespace Dribble

/-- Bytes of a string literal. -/
def bytes (s : String) : List Nat :=
  s.toList.map Char.toNat

/-! ## libc string functions -/

/-- Contents of the C string that starts at the beginning of `buf`. -/
def cstr (buf : List Nat) : List Nat :=
  buf.takeWhile (fun c => c != 0)

/-- Function `strlen`. -/
def strlen (buf : List Nat) : Nat :=
  (cstr buf).length

/-- Function `strstr` on string contents: the offset of the first occurrence of
`needle` in `hay`, or `none` for a NULL result. -/
def strstr : List Nat → List Nat → Option Nat
  | [], needle => if needle.isPrefixOf [] then some 0 else none
  | c :: hay, needle =>
    if needle.isPrefixOf (c :: hay) then some 0
    else (strstr hay needle).map (fun k => k + 1)

/-- Function `strcspn`: length of the initial segment of `s` that contains no
byte of `reject`. -/
def strcspn (s reject : List Nat) : Nat :=
  (s.takeWhile (fun c => !(reject.contains c))).length

/-- Function `isspace` in the C locale. -/
def isspace (c : Nat) : Bool :=
  c == 32 || (9 ≤ c && c ≤ 13)

/-- Digit test of `strtol` for a base of at most ten. -/
def isdigitIn (base : Nat) (c : Nat) : Bool :=
  48 ≤ c && c < 48 + base

/-- Value `LONG_MAX` of a 64-bit `long`. -/
def LONG_MAX : Int := 9223372036854775807

/-- Value `LONG_MIN` of a 64-bit `long`. -/
def LONG_MIN : Int := -9223372036854775808

/-- Result of `strtol`: the value returned, the string that `endptr` points to
afterwards, and whether `errno` was set to `ERANGE`. -/
structure Strtol where
  val : Int
  rest : List Nat
  erange : Bool
deriving DecidableEq, Repr

/-- Function `strtol` for the bases used by the program (8 and 10): optional
white space, an optional sign, then the longest run of digits of the base.
Without a digit no conversion is performed: the value is 0 and `endptr` is
`nptr`.  A value outside `long` is clamped and reported by `ERANGE`. -/
def strtol (s : List Nat) (base : Nat) : Strtol :=
  let s1 := s.dropWhile isspace
  let s2 := if s1.head? == some 45 || s1.head? == some 43 then s1.drop 1 else s1
  let ds := s2.takeWhile (isdigitIn base)
  if ds.isEmpty then ⟨0, s, false⟩
  else
    let mag : Nat := ds.foldl (fun acc d => acc * base + (d - 48)) 0
    let v : Int := if s1.head? == some 45 then -(mag : Int) else (mag : Int)
    let rest := s2.dropWhile (isdigitIn base)
    if v > LONG_MAX then ⟨LONG_MAX, rest, true⟩
    else if v < LONG_MIN then ⟨LONG_MIN, rest, true⟩
    else ⟨v, rest, false⟩

/-- Byte `*endptr` after `strtol`: the first byte of the rest, or the NUL that
ends the string. -/
def endByte (r : Strtol) : Nat :=
  r.rest.headD 0

/-- Conversion of a `long` to `char`, as a byte value. -/
def toChar (v : Int) : Nat :=
  (v % 256).toNat

/-! ## Diagnostics and process exit -/

/-- Format strings handed to `die`. -/
inductive Diag where
  | BALLERR | HOLEERR | PAUSEERR
  | OPTERR (c : Nat)
  | PARTERR | UUIDERR | LABELERR | ALLOCERR | DAEMONERR
  | PROCOPENERR | PROCFMTERR
deriving DecidableEq, Repr

/-- Ways in which the process leaves `parsecmdargs`. -/
inductive Exit where
  | failure (d : Diag)
  | success
deriving DecidableEq, Repr

/-! ## Options -/

/-- Constants of `config.h`, which is not part of the sources at hand. -/
structure Config where
  defaultball : Int
  defaulthole : List Nat
  defaultpause : Int
deriving DecidableEq, Repr

/-- Structure `Options`.  Pointers are `none` when NULL; `label` is the
string held in `label[PATH_MAX]`. -/
structure Options where
  ball : Int
  hole : Option (List Nat)
  part : Option (List Nat)
  uuidpath : Option (List Nat)
  label : List Nat
  pause : Int
  useuuid : Bool
  daemonize : Bool
  verbose : Bool
deriving DecidableEq, Repr

/-- Initial value of the global `opt`. -/
def optInit (cfg : Config) : Options :=
  { ball := cfg.defaultball, hole := none, part := none, uuidpath := none,
    label := [], pause := cfg.defaultpause,
    useuuid := false, daemonize := false, verbose := false }

/-- Constant `UUIDCHARSET`: the bytes of `0123456789abcdefABCDEF-`. -/
def UUIDCHARSET : List Nat :=
  [48, 49, 50, 51, 52, 53, 54, 55, 56, 57,
   97, 98, 99, 100, 101, 102, 65, 66, 67, 68, 69, 70, 45]

/-- Constant `DEV`: the bytes of `/dev/`. -/
def DEV : List Nat := [47, 100, 101, 118, 47]

/-- Constant `DEVUUID`: the bytes of `/dev/disk/by-uuid/`. -/
def DEVUUID : List Nat :=
  [47, 100, 101, 118, 47, 100, 105, 115, 107, 47, 98, 121, 45, 117, 117, 105, 100, 47]

/-- Constant `PATH_MAX` of Linux. -/
def PATH_MAX : Nat := 4096

/-- Constant `UCHAR_MAX`. -/
def UCHAR_MAX : Int := 255

/-- Constant `UINT_MAX` of a 32-bit `unsigned int`. -/
def UINT_MAX : Int := 4294967295

/-! ## parsecmdargs -/

/-- Option whose value is expected in the next element of `argv`, if any. -/
inductive Pending where
  | nothing | ball | hole | pause
deriving DecidableEq, Repr

/-- Case `b` once the value string `v` is known: `strtol` in base 8 and the
range check. -/
def setball (opt : Options) (v : List Nat) : Except Exit Options :=
  let r := strtol v 8
  if r.erange || endByte r != 0 || r.val < 0 || r.val > UCHAR_MAX then
    Except.error (Exit.failure Diag.BALLERR)
  else Except.ok { opt with ball := r.val }

/-- Case `p` once the value string `v` is known: `strtol` in base 10 and the
range check. -/
def setpause (opt : Options) (v : List Nat) : Except Exit Options :=
  let r := strtol v 10
  if r.erange || endByte r != 0 || r.val < 0 || r.val > UINT_MAX then
    Except.error (Exit.failure Diag.PAUSEERR)
  else Except.ok { opt with pause := r.val }

/-- The code from label `nextmergedarg` on.  The list is what follows the byte
that `argv[0]` points to.  The result tells whether the value of an option is
still to be taken from the next element of `argv`. -/
def mergedarg (opt : Options) : List Nat → Except Exit (Options × Pending)
  | [] => Except.ok (opt, Pending.nothing)
  | c :: cs =>
    if c = 98 then
      if cs != [] then (setball opt cs).map (fun o => (o, Pending.nothing))
      else Except.ok (opt, Pending.ball)
    else if c = 104 then
      if cs != [] then Except.ok ({ opt with hole := some cs }, Pending.nothing)
      else Except.ok (opt, Pending.hole)
    else if c = 112 then
      if cs != [] then (setpause opt cs).map (fun o => (o, Pending.nothing))
      else Except.ok (opt, Pending.pause)
    else if c = 117 then mergedarg { opt with useuuid := true } cs
    else if c = 100 then mergedarg { opt with daemonize := true } cs
    else if c = 118 then mergedarg { opt with verbose := true } cs
    else if c = 45 then Except.error Exit.success
    else Except.error (Exit.failure (Diag.OPTERR c))

/-- The loop `while (--argc > 0)` over the elements of `argv` that are left. -/
def argloop (opt : Options) : Pending → List (List Nat) → Except Exit Options
  | Pending.nothing, [] => Except.ok opt
  | Pending.ball, [] => Except.error (Exit.failure Diag.PAUSEERR)
  | Pending.hole, [] => Except.error (Exit.failure Diag.HOLEERR)
  | Pending.pause, [] => Except.error (Exit.failure Diag.PAUSEERR)
  | Pending.ball, v :: rest =>
    match setball opt v with
    | Except.ok o => argloop o Pending.nothing rest
    | Except.error e => Except.error e
  | Pending.hole, v :: rest => argloop { opt with hole := some v } Pending.nothing rest
  | Pending.pause, v :: rest =>
    match setpause opt v with
    | Except.ok o => argloop o Pending.nothing rest
    | Except.error e => Except.error e
  | Pending.nothing, a :: rest =>
    if a.head? = some 45 then
      match mergedarg opt a.tail with
      | Except.ok (o, pending) => argloop o pending rest
      | Except.error e => Except.error e
    else argloop { opt with part := some a } Pending.nothing rest

/-- Value of `sizeof(DEV)`. -/
def sizeofDEV : Nat := DEV.length + 1

/-- The checks of `parsecmdargs` that follow the loop.  Allocation is taken to
succeed. -/
def checkargs (cfg : Config) (opt : Options) : Except Exit Options :=
  match opt.part with
  | none => Except.error (Exit.failure Diag.PARTERR)
  | some part =>
    let checked : Except Exit Options :=
      if opt.useuuid then
        if strcspn part UUIDCHARSET != 0 then Except.error (Exit.failure Diag.UUIDERR)
        else Except.ok { opt with uuidpath := some (DEVUUID ++ part) }
      else
        let pl := strlen part
        if pl + 1 > PATH_MAX then Except.error (Exit.failure Diag.LABELERR)
        else if strstr part DEV != some 0 then
          if sizeofDEV + pl > PATH_MAX then Except.error (Exit.failure Diag.LABELERR)
          else Except.ok { opt with label := DEV ++ part }
        else Except.ok { opt with label := part }
    checked.map (fun o =>
      if o.hole = none then { o with hole := some cfg.defaulthole } else o)

/-- Function `parsecmdargs`: the options on return, or the way the process
exits.  Element 0 of `argv` is the program name. -/
def parsecmdargs (cfg : Config) (argv : List (List Nat)) : Except Exit Options :=
  match argloop (optInit cfg) Pending.nothing argv.tail with
  | Except.ok opt => checkargs cfg opt
  | Except.error e => Except.error e

/-! ## getmountpoint -/

/-- Result of `getmountpoint`. -/
inductive Mount where
  /-- Return value -1 with `*mp = NULL`. -/
  | notMounted
  /-- Return value `mpl`; `*mp` points to a buffer of `mpl + 1` bytes. -/
  | mounted (mp : List Nat) (mpl : Nat)
  /-- The call ended in `die`. -/
  | die (d : Diag)
  /-- The pointer `mpstart` lies behind the terminating NUL of the line: what
  is read from there on is not determined by the line. -/
  | overrun
deriving DecidableEq, Repr

/-- The search loop of `getmountpoint`: position of the first line for which
`strstr(line, opt.label) == line`. -/
def findline (label : List Nat) : List (List Nat) → Option Nat
  | [] => none
  | line :: rest =>
    if strstr (cstr line) label = some 0 then some 0
    else (findline label rest).map (fun k => k + 1)

/-- The loop that replaces escape sequences, run over the bytes between
`mpstart` and `mpend`: `cp` points to the head of the list and `mpend - cp` is
its length.  Result `none` stands for `die(PROCFMTERR)`. -/
def unescape : List Nat → Option (List Nat)
  | [] => some []
  | c :: cs =>
    if c = 92 then
      match cs with
      | d1 :: d2 :: d3 :: rest =>
        let esc := [d1, d2, d3]
        let r := strtol esc 8
        if r.erange || endByte r != 0 then none
        else (unescape rest).map (fun out => toChar r.val :: out)
      | _ => none
    else (unescape cs).map (fun out => c :: out)

/-- The end of `getmountpoint`, from the allocation of `*mp` on: the field
between `mpstart` and `mpend` is decoded into `*mp`, a NUL is appended and the
number of decoded bytes is returned. -/
def mountOf (field : List Nat) : Mount :=
  match unescape field with
  | none => Mount.die Diag.PROCFMTERR
  | some out => Mount.mounted (out ++ [0]) out.length

/-- Function `getmountpoint`.  Argument `mounts` is what reading
`/proc/mounts` yields: `none` when `fopen` fails, else the lines in order.
Allocation is taken to succeed. -/
def getmountpoint (label : List Nat) (mounts : Option (List (List Nat))) : Mount :=
  match mounts with
  | none => Mount.die Diag.PROCOPENERR
  | some table =>
    match findline label table with
    | none => Mount.notMounted
    | some i =>
      let line := table.getD i []
      let mpstart := label.length + 1
      if line.length < mpstart then Mount.overrun
      else
        let tail := cstr (line.drop mpstart)
        match strstr tail [32] with
        | none => Mount.die Diag.PROCFMTERR
        | some mpend => mountOf (tail.take mpend)

/-! ## getfilepath -/

/-- Memory returned by `malloc`: `size` bytes whose contents `junk` are not
determined. -/
def malloc (size : Nat) (junk : Nat → Nat) : List Nat :=
  (List.range size).map junk

/-- Buffer `buf` after the bytes `data` were stored from offset `off` on. -/
def store (buf : List Nat) (off : Nat) (data : List Nat) : List Nat :=
  buf.take off ++ data ++ buf.drop (off + data.length)

/-- Function `strcpy`: the string in `src` and its NUL are stored at the start
of `dst`. -/
def strcpy (dst src : List Nat) : List Nat :=
  store dst 0 (cstr src ++ [0])

/-- Function `strcat`: the string in `src` and its NUL are stored over the
NUL that ends the string in `dst`. -/
def strcat (dst src : List Nat) : List Nat :=
  store dst (strlen dst) (cstr src ++ [0])

/-- Function `getfilepath`: the buffer `fpath` it returns.  Argument `mp` is
the buffer filled by `getmountpoint`. -/
def getfilepath (opt : Options) (junk : Nat → Nat) (mp : List Nat) (mpl : Nat) : List Nat :=
  let hole := opt.hole.getD []
  let fpath := malloc (mpl + strlen hole + 2) junk
  let fpath := strcpy fpath mp
  let fpath := store fpath mpl [47]
  let fpath := store fpath (mpl + 1) [0]
  strcat fpath hole

/-! ## Observable effects -/

/-- Messages printed by the poll loop, with their string arguments. -/
inductive Msg where
  | UUIDFOUND (part label : List Nat)
  | NOTUUID (part : List Nat)
  | NOTMNT (part : List Nat)
  | FOPENERR (fpath : List Nat)
  | FWRITEERR (fpath : List Nat)
  | FWRITESCCSS (fpath : List Nat)
deriving DecidableEq, Repr

/-- System calls and output of one poll cycle, in program order. -/
inductive Event where
  | stdout (m : Msg)
  | stderr (m : Msg)
  /-- Call `open(fpath, O_CREAT|O_WRONLY|O_SYNC, PERMS)`. -/
  | open (fpath : List Nat)
  /-- Call `write(fd, &opt.ball, 1)` with the byte stored first in `opt.ball`. -/
  | write (fpath : List Nat) (byte : Nat)
  | close (fpath : List Nat)
  | sleep (seconds : Int)
deriving DecidableEq, Repr

/-- What the operating system answers during one poll cycle. -/
structure Sys where
  /-- Resolved path written by `realpath(opt.uuidpath, opt.label)`, `none`
  when it returns NULL. -/
  realpath : Option (List Nat)
  /-- Lines of `/proc/mounts`, `none` when `fopen` fails. -/
  mounts : Option (List (List Nat))
  /-- Contents of freshly allocated memory. -/
  junk : Nat → Nat
  /-- Whether `open` returns a descriptor. -/
  openOk : Bool
  /-- Return value of `write`. -/
  written : Int

/-- The byte at the lowest address of the `long` `opt.ball` (little endian). -/
def ballByte (opt : Options) : Nat :=
  toChar opt.ball

/-- Messages are printed when `opt.verbose && !opt.daemonize`. -/
def chatty (opt : Options) : Bool :=
  opt.verbose && !opt.daemonize

/-- Function `getlabel`. -/
def getlabel (opt : Options) (sys : Sys) : Options × List Event :=
  match sys.realpath with
  | some p =>
    ({ opt with label := p },
      if chatty opt then [Event.stdout (Msg.UUIDFOUND (opt.part.getD []) p)] else [])
  | none =>
    ({ opt with label := [] },
      if chatty opt then [Event.stdout (Msg.NOTUUID (opt.part.getD []))] else [])

/-- Function `dribble`.  Argument `file` is the content of the file named
`fpath` before the call (`none` when it does not exist); the result is its
content afterwards and the calls made.  The file is opened without truncation
and the byte is written at offset 0. -/
def dribble (opt : Options) (fpath : List Nat) (sys : Sys) (file : Option (List Nat)) :
    Option (List Nat) × List Event :=
  if !sys.openOk then
    (file, Event.open fpath ::
      (if chatty opt then [Event.stderr (Msg.FOPENERR fpath)] else []))
  else
    let old := file.getD []
    let new := if sys.written = 1 then ballByte opt :: old.drop 1 else old
    let report :=
      if sys.written != 1 && chatty opt then [Event.stderr (Msg.FWRITEERR fpath)]
      else if chatty opt then [Event.stdout (Msg.FWRITESCCSS fpath)]
      else []
    (some new, [Event.open fpath, Event.write fpath (ballByte opt)] ++ report
      ++ [Event.close fpath])

/-- Result of one iteration of the loop of `main`. -/
inductive Cycle where
  /-- The iteration reached `sleep`: the options and target file afterwards
  and the effects, the last of which is the sleep. -/
  | slept (opt : Options) (file : Option (List Nat)) (trace : List Event)
  /-- The iteration ended in `die`. -/
  | died (d : Diag)
  /-- Function `getmountpoint` read behind the end of a line. -/
  | overrun
deriving DecidableEq, Repr

/-- One iteration of `while (1)` in `main`. -/
def cycle (opt : Options) (sys : Sys) (file : Option (List Nat)) : Cycle :=
  let (opt, t1) := if opt.useuuid then getlabel opt sys else (opt, [])
  if opt.label != [] then
    match getmountpoint opt.label sys.mounts with
    | Mount.mounted mp mpl =>
      let fpath := getfilepath opt sys.junk mp mpl
      let (file, t2) := dribble opt (cstr fpath) sys file
      Cycle.slept opt file (t1 ++ t2 ++ [Event.sleep opt.pause])
    | Mount.notMounted =>
      Cycle.slept opt file (t1
        ++ (if chatty opt then [Event.stdout (Msg.NOTMNT (opt.part.getD []))] else [])
        ++ [Event.sleep opt.pause])
    | Mount.die d => Cycle.died d
    | Mount.overrun => Cycle.overrun
  else Cycle.slept opt file (t1 ++ [Event.sleep opt.pause])

/-! ## Vocabulary of the specification -/

/-- Device field of a line: the bytes of its text before the first space. -/
def deviceField (line : List Nat) : List Nat :=
  (cstr line).takeWhile (fun c => c != 32)

/-- Mount-point field of a line: the bytes from the start of field 2 up to the
next space; `none` when the line has no such field. -/
def mountField (line : List Nat) : Option (List Nat) :=
  let rest := (cstr line).drop ((deviceField line).length + 1)
  if rest.contains 32 then some (rest.takeWhile (fun c => c != 32)) else none

/-- The Matcher as the specification words it: the first line in table order
whose device field is byte-for-byte equal to the label. -/
def matcher (label : List Nat) (table : List (List Nat)) : Option (List Nat) :=
  table.find? (fun line => deviceField line == label)

/-- Device field `d` is a proper extension of `label`. -/
def properExtension (label d : List Nat) : Prop :=
  label <+: d ∧ d ≠ label

instance (label d : List Nat) : Decidable (properExtension label d) :=
  inferInstanceAs (Decidable (label <+: d ∧ d ≠ label))

/-- The three-digit octal code of a byte. -/
def octal3 (c : Nat) : List Nat :=
  [48 + c / 64 % 8, 48 + c / 8 % 8, 48 + c % 8]

/-- The bytes that the mount table escapes: space, tab, newline, backslash. -/
def escaped (c : Nat) : Bool :=
  c == 32 || c == 9 || c == 10 || c == 92

/-- The octal-escape encoding of the mount table: every space, tab, newline
and backslash is replaced by a backslash and the three-digit octal code of the
byte. -/
def escape : List Nat → List Nat
  | [] => []
  | c :: cs => if escaped c then 92 :: (octal3 c ++ escape cs) else c :: escape cs

/-- Octal digit. -/
def isOctal (c : Nat) : Bool :=
  48 ≤ c && c ≤ 55

/-- A byte string that is an octal numeral as `strtol` reads one: optional
white space, an optional sign, then one or more octal digits and nothing
else.  Three octal digits are such a numeral. -/
def octalNumeral (s : List Nat) : Bool :=
  let s1 := s.dropWhile isspace
  let s2 := if s1.head? == some 45 || s1.head? == some 43 then s1.drop 1 else s1
  !s2.isEmpty && s2.all isOctal

/-- The mount-point field holds an escape that the specification calls
malformed: a backslash followed, inside the field, by fewer than three bytes or
by three bytes that are not all octal digits. -/
def malformed (field : List Nat) : Prop :=
  ∃ a b, field = a ++ 92 :: b ∧ (b.length < 3 ∨ (b.take 3).all isOctal = false)

/-- The mount-point field holds a backslash followed, inside the field, by
fewer than three bytes or by three bytes that are not an octal numeral. -/
def unreadable (field : List Nat) : Prop :=
  ∃ a b, field = a ++ 92 :: b ∧ (b.length < 3 ∨ octalNumeral (b.take 3) = false)

/-- The operation of `dribble` failed: `open` gave no descriptor, or `write`
did not return 1. -/
def failed (sys : Sys) : Bool :=
  !sys.openOk || sys.written != 1

/-- The event is a failure diagnostic of `dribble`. -/
def isFailureReport : Event → Bool
  | Event.stderr (Msg.FOPENERR _) => true
  | Event.stderr (Msg.FWRITEERR _) => true
  | _ => false

/-- The number that a string of digits denotes in the given base. -/
def numeralValue (base : Nat) (ds : List Nat) : Nat :=
  ds.foldl (fun acc d => acc * base + (d - 48)) 0

/-- A piece of a mount-point field: a byte that stands for itself, or an escape
of three octal digits, given by their values. -/
inductive Token where
  | plain (c : Nat)
  | octal (d1 d2 d3 : Nat)
deriving DecidableEq, Repr

/-- A plain byte is not a backslash; the digits of an escape are below 8. -/
def wellFormed : Token → Bool
  | Token.plain c => c != 92
  | Token.octal d1 d2 d3 => d1 < 8 && d2 < 8 && d3 < 8

/-- The bytes of a token in the field. -/
def renderToken : Token → List Nat
  | Token.plain c => [c]
  | Token.octal d1 d2 d3 => [92, 48 + d1, 48 + d2, 48 + d3]

/-- The field made of a sequence of tokens. -/
def render : List Token → List Nat
  | [] => []
  | t :: ts => renderToken t ++ render ts

/-- The byte a token stands for. -/
def tokenValue : Token → Nat
  | Token.plain c => c
  | Token.octal d1 d2 d3 => (64 * d1 + 8 * d2 + d3) % 256

/-- The bytes of the selected line between `mpstart` and `mpend`: the raw
mount-point field that `getmountpoint` decodes, for which it allocates one
byte more than the field has. -/
def mpfield (label : List Nat) (mounts : Option (List (List Nat))) : Option (List Nat) :=
  match mounts with
  | none => none
  | some table =>
    match findline label table with
    | none => none
    | some i =>
      let line := table.getD i []
      let mpstart := label.length + 1
      if line.length < mpstart then none
      else
        let tail := cstr (line.drop mpstart)
        match strstr tail [32] with
        | none => none
        | some mpend => some (tail.take mpend)

/-- The number of times the decoding loop takes the branch of the escape. -/
def escapesDecoded : List Nat → Nat
  | [] => 0
  | c :: cs =>
    if c = 92 then
      match cs with
      | _ :: _ :: _ :: rest => escapesDecoded rest + 1
      | _ => 0
    else escapesDecoded cs

/-- Label normalisation of `parsecmdargs` in label form: a partition string
that does not begin with `/dev/` gets that prefix. -/
def normalise (p : List Nat) : List Nat :=
  if DEV.isPrefixOf p then p else DEV ++ p

/-- The ball is a byte value and the pause fits an `unsigned int`. -/
def inRange (o : Options) : Prop :=
  0 ≤ o.ball ∧ o.ball ≤ UCHAR_MAX ∧ 0 ≤ o.pause ∧ o.pause ≤ UINT_MAX

/-- No option argument holds the letter `h`: option `-h` is absent. -/
def holeAbsent (args : List (List Nat)) : Prop :=
  ∀ a ∈ args, a.head? = some 45 → 104 ∉ a

instance (args : List (List Nat)) : Decidable (holeAbsent args) :=
  inferInstanceAs (Decidable (∀ a ∈ args, a.head? = some 45 → 104 ∉ a))

/-! ## C strings, `strstr` and the search loop -/

/-- The string in a buffer is an initial part of the buffer. -/
theorem cstr_prefix_buf (l : List Nat) : cstr l <+: l := by
  unfold cstr
  exact List.takeWhile_prefix _

/-- A C string holds no NUL. -/
theorem zero_not_mem_cstr (l : List Nat) : 0 ∉ cstr l := by
  intro h
  have := List.mem_takeWhile_imp h
  simp at this

/-- A buffer without NUL is its own string. -/
theorem cstr_of_not_mem {l : List Nat} (h : 0 ∉ l) : cstr l = l := by
  unfold cstr
  rw [List.takeWhile_eq_self_iff]
  intro c hc
  have : c ≠ 0 := fun e => h (e ▸ hc)
  simpa using this

/-- The string of a buffer passes over an initial part without NUL. -/
theorem cstr_append {a : List Nat} (b : List Nat) (h : 0 ∉ a) : cstr (a ++ b) = a ++ cstr b := by
  induction a with
  | nil => rfl
  | cons c a ih =>
    have hc : c ≠ 0 := fun e => h (by simp [e])
    have ha : 0 ∉ a := fun e => h (List.mem_cons_of_mem _ e)
    simp only [cstr, List.cons_append] at ih ⊢
    rw [List.takeWhile_cons_of_pos (by simpa using hc), ih ha]

/-- A leading NUL gives the empty string. -/
theorem cstr_zero (l : List Nat) : cstr (0 :: l) = [] := by
  simp [cstr]

/-- The string ends at the first NUL. -/
theorem cstr_append_zero {a : List Nat} (b : List Nat) (h : 0 ∉ a) : cstr (a ++ 0 :: b) = a := by
  rw [cstr_append _ h, cstr_zero, List.append_nil]

/-- A buffer is its C string followed by nothing or by a NUL and more. -/
theorem eq_cstr_append (l : List Nat) : l = cstr l ∨ ∃ r, l = cstr l ++ 0 :: r := by
  induction l with
  | nil => left; rfl
  | cons c l ih =>
    by_cases hc : c = 0
    · right; subst hc; exact ⟨l, by simp [cstr]⟩
    · have e : cstr (c :: l) = c :: cstr l := by
        simp only [cstr]; rw [List.takeWhile_cons_of_pos (by simpa using hc)]
      rcases ih with h | ⟨r, h⟩
      · left; rw [e, ← h]
      · right; exact ⟨r, by rw [e, List.cons_append, ← h]⟩

/-- The test `strstr(hay, needle) == hay` holds exactly when `hay` begins with
`needle`. -/
theorem strstr_zero_iff (hay needle : List Nat) :
    strstr hay needle = some 0 ↔ needle <+: hay := by
  cases hay with
  | nil =>
    simp only [strstr]
    split <;> rename_i h
    · simpa using (List.isPrefixOf_iff_prefix.mp h)
    · simp only [false_iff, reduceCtorEq]; intro hp; exact h (List.isPrefixOf_iff_prefix.mpr hp)
  | cons c hay =>
    simp only [strstr]
    split <;> rename_i h
    · simpa using (List.isPrefixOf_iff_prefix.mp h)
    · constructor
      · intro e
        cases hs : strstr hay needle <;> simp [hs] at e
      · intro hp; exact absurd (List.isPrefixOf_iff_prefix.mpr hp) h

/-- The search loop finds nothing when no line begins with the label. -/
theorem findline_none {label : List Nat} {table : List (List Nat)}
    (h : ∀ x ∈ table, ¬ label <+: cstr x) : findline label table = none := by
  induction table with
  | nil => rfl
  | cons l t ih =>
    have h1 : ¬ strstr (cstr l) label = some 0 := by
      rw [strstr_zero_iff]; exact h l (by simp)
    simp only [findline, if_neg h1, ih (fun x hx => h x (List.mem_cons_of_mem _ hx)),
      Option.map_none']

/-- The search loop stops at the first line that begins with the label. -/
theorem findline_first {label : List Nat} {pre : List (List Nat)} (l : List Nat)
    (post : List (List Nat))
    (hpre : ∀ x ∈ pre, ¬ label <+: cstr x) (hl : label <+: cstr l) :
    findline label (pre ++ l :: post) = some pre.length := by
  induction pre with
  | nil =>
    have h1 : strstr (cstr l) label = some 0 := (strstr_zero_iff _ _).mpr hl
    simp [findline, h1]
  | cons p pre ih =>
    have h1 : ¬ strstr (cstr p) label = some 0 := by
      rw [strstr_zero_iff]; exact hpre p (by simp)
    have e := ih (fun x hx => hpre x (List.mem_cons_of_mem _ hx))
    rw [List.cons_append]
    simp only [findline, if_neg h1, e, Option.map_some', List.length_cons]

/-- What `findline` returns is the position of the first line that begins with the label. -/
theorem findline_some {label : List Nat} {table : List (List Nat)} {i : Nat}
    (h : findline label table = some i) :
    ∃ pre l post, table = pre ++ l :: post ∧ pre.length = i ∧
      (∀ x ∈ pre, ¬ label <+: cstr x) ∧ label <+: cstr l := by
  induction table generalizing i with
  | nil => simp [findline] at h
  | cons a t ih =>
    simp only [findline] at h
    split at h
    · rename_i h0
      have : i = 0 := by simpa using h.symm
      subst this
      exact ⟨[], a, t, rfl, rfl, by simp, (strstr_zero_iff _ _).mp h0⟩
    · rename_i h0
      cases hs : findline label t with
      | none => simp [hs] at h
      | some k =>
        simp only [hs, Option.map_some', Option.some.injEq] at h
        obtain ⟨pre, l, post, e, hlen, hp, hl⟩ := ih hs
        refine ⟨a :: pre, l, post, by simp [e], by simp [hlen, h], ?_, hl⟩
        intro x hx
        rcases List.mem_cons.mp hx with rfl | hx
        · rwa [strstr_zero_iff] at h0
        · exact hp x hx


/-- The first space behind a field without space is found at its end. -/
theorem strstr_space {f : List Nat} (r : List Nat) (h : 32 ∉ f) :
    strstr (f ++ 32 :: r) [32] = some f.length := by
  induction f with
  | nil => simp [strstr, List.isPrefixOf]
  | cons c f ih =>
    have hc : ¬ (32 = c) := fun e => h (by simp [e])
    have hf : 32 ∉ f := fun e => h (List.mem_cons_of_mem _ e)
    simp [strstr, List.isPrefixOf, hc, ih hf]

/-- No space is found in a string without space. -/
theorem strstr_space_none {t : List Nat} (h : 32 ∉ t) : strstr t [32] = none := by
  induction t with
  | nil => simp [strstr, List.isPrefixOf]
  | cons c f ih =>
    have hc : ¬ (32 = c) := fun e => h (by simp [e])
    have hf : 32 ∉ f := fun e => h (List.mem_cons_of_mem _ e)
    simp [strstr, List.isPrefixOf, hc, ih hf]

/-- The line that `getmountpoint` selects, when it has a field that ends in a
space behind the byte that follows the label, yields the decoding of that
field. -/
theorem getmountpoint_selected {label : List Nat} {pre : List (List Nat)}
    (post : List (List Nat)) (sep : Nat) {field : List Nat} (rest : List Nat)
    (hpre : ∀ x ∈ pre, ¬ label <+: cstr x) (h0 : 0 ∉ label)
    (hf0 : 0 ∉ field) (hf32 : 32 ∉ field) :
    getmountpoint label (some (pre ++ (label ++ sep :: (field ++ 32 :: rest)) :: post))
      = mountOf field := by
  have hl : label <+: cstr (label ++ sep :: (field ++ 32 :: rest)) := by
    rw [cstr_append _ h0]; exact List.prefix_append _ _
  have hdrop : (label ++ sep :: (field ++ 32 :: rest)).drop (label.length + 1)
      = field ++ 32 :: rest := by
    rw [← List.drop_drop, List.drop_left]; rfl
  have hc : cstr (field ++ 32 :: rest) = field ++ 32 :: cstr rest := by
    rw [cstr_append _ hf0]; simp [cstr]
  simp only [getmountpoint, findline_first _ post hpre hl]
  rw [List.getD_eq_getElem?_getD, List.getElem?_append_right (Nat.le_refl _)]
  simp only [Nat.sub_self, List.getElem?_cons_zero, Option.getD_some]
  rw [if_neg (by simp), hdrop, hc, strstr_space _ hf32]
  simp

/-- The four escaped bytes. -/
theorem escaped_iff (c : Nat) : escaped c = true ↔ c = 32 ∨ c = 9 ∨ c = 10 ∨ c = 92 := by
  simp [escaped, or_assoc]

/-- The decoding loop turns the escape of an escaped byte back into the byte. -/
theorem unescape_octal3 {c : Nat} (h : escaped c = true) (rest : List Nat) :
    unescape (92 :: (octal3 c ++ rest)) = (unescape rest).map (fun out => c :: out) := by
  rcases (escaped_iff c).mp h with rfl | rfl | rfl | rfl <;> rfl

/-- The decoding loop copies a byte that is not a backslash. -/
theorem unescape_cons_of_ne {c : Nat} (cs : List Nat) (hc : c ≠ 92) :
    unescape (c :: cs) = (unescape cs).map (fun out => c :: out) := by
  rcases cs with _ | ⟨d1, _ | ⟨d2, _ | ⟨d3, rest⟩⟩⟩ <;> simp [unescape, hc]

/-- Decoding inverts the octal-escape encoding. -/
theorem unescape_escape (b : List Nat) : unescape (escape b) = some b := by
  induction b with
  | nil => rfl
  | cons c cs ih =>
    by_cases h : escaped c = true
    · simp only [escape, if_pos h]
      rw [unescape_octal3 h, ih]; rfl
    · have hc : c ≠ 92 := fun e => h (by simp [e, escaped])
      simp only [escape, if_neg h]
      rw [unescape_cons_of_ne _ hc, ih]; rfl

/-- The bytes of an encoding: unescaped bytes of the original, backslashes and
octal digits. -/
theorem mem_escape {x : Nat} {b : List Nat} (h : x ∈ escape b) :
    (x ∈ b ∧ escaped x = false) ∨ x = 92 ∨ (48 ≤ x ∧ x ≤ 55) := by
  induction b with
  | nil => simp [escape] at h
  | cons c cs ih =>
    by_cases hc : escaped c = true
    · simp only [escape, if_pos hc, octal3, List.mem_cons, List.cons_append, List.nil_append] at h
      rcases h with h | h | h | h | h
      · right; left; exact h
      · right; right; omega
      · right; right; omega
      · right; right; omega
      · rcases ih h with ⟨h1, h2⟩ | h1
        · left; exact ⟨List.mem_cons_of_mem _ h1, h2⟩
        · right; exact h1
    · simp only [escape, if_neg hc, List.mem_cons] at h
      rcases h with h | h
      · left; subst h; exact ⟨by simp, by simpa using hc⟩
      · rcases ih h with ⟨h1, h2⟩ | h1
        · left; exact ⟨List.mem_cons_of_mem _ h1, h2⟩
        · right; exact h1

/-- An encoding holds no space. -/
theorem space_not_mem_escape (b : List Nat) : 32 ∉ escape b := by
  intro h
  rcases mem_escape h with ⟨_, h2⟩ | h1 | h1
  · simp [escaped] at h2
  · omega
  · omega

/-- The encoding of a sequence without NUL holds no NUL. -/
theorem zero_not_mem_escape {b : List Nat} (h0 : 0 ∉ b) : 0 ∉ escape b := by
  intro h
  rcases mem_escape h with ⟨h1, _⟩ | h1 | h1
  · exact h0 h1
  · omega
  · omega

/-- Encoding does not shorten. -/
theorem length_le_length_escape (b : List Nat) : b.length ≤ (escape b).length := by
  induction b with
  | nil => simp [escape]
  | cons c cs ih =>
    by_cases hc : escaped c = true
    · simp only [escape, if_pos hc, octal3, List.length_cons, List.length_append]; omega
    · simp only [escape, if_neg hc, List.length_cons]; omega

/-- The end of `getmountpoint` on an encoded field returns the original. -/
theorem mountOf_escape (b : List Nat) : mountOf (escape b) = Mount.mounted (b ++ [0]) b.length := by
  simp [mountOf, unescape_escape]

/-! ## `strtol` and the decoding loop -/

/-- The string that `endptr` points to after `strtol`. -/
theorem strtol_rest (s : List Nat) (base : Nat) :
    (strtol s base).rest =
      if ((if (s.dropWhile isspace).head? == some 45 || (s.dropWhile isspace).head? == some 43
            then (s.dropWhile isspace).drop 1 else s.dropWhile isspace).takeWhile
              (isdigitIn base)).isEmpty then s
      else (if (s.dropWhile isspace).head? == some 45 || (s.dropWhile isspace).head? == some 43
            then (s.dropWhile isspace).drop 1 else s.dropWhile isspace).dropWhile
              (isdigitIn base) := by
  simp only [strtol]
  split_ifs <;> rfl

/-- The digits of base 8 are the octal digits. -/
theorem isdigitIn_eight : isdigitIn 8 = isOctal := by
  funext c
  simp only [isdigitIn, isOctal]
  by_cases h : c < 56 <;> by_cases h2 : 48 ≤ c <;> simp [h, h2] <;> omega

/-- What is left by `dropWhile` belongs to the list. -/
theorem mem_of_mem_dropWhile {p : Nat → Bool} {l : List Nat} {x : Nat}
    (h : x ∈ l.dropWhile p) : x ∈ l :=
  (List.dropWhile_suffix p).subset h

/-- When `*endptr` is NUL after `strtol` in base 8 ran on a non-empty string
without NUL, the string is an octal numeral. -/
theorem octalNumeral_of_endByte {s : List Nat} (hs : s ≠ []) (h0 : 0 ∉ s)
    (h : endByte (strtol s 8) = 0) : octalNumeral s = true := by
  simp only [endByte, strtol_rest] at h
  simp only [octalNumeral]
  have hsub : ∀ x ∈ (if (s.dropWhile isspace).head? == some 45
      || (s.dropWhile isspace).head? == some 43
      then (s.dropWhile isspace).drop 1 else s.dropWhile isspace), x ∈ s := by
    intro x hx
    split_ifs at hx
    · exact mem_of_mem_dropWhile (List.mem_of_mem_drop hx)
    · exact mem_of_mem_dropWhile hx
  generalize (if (s.dropWhile isspace).head? == some 45
      || (s.dropWhile isspace).head? == some 43
      then (s.dropWhile isspace).drop 1 else s.dropWhile isspace) = s2 at h hsub ⊢
  split_ifs at h with h1
  · cases s with
    | nil => exact absurd rfl hs
    | cons c t => simp only [List.headD_cons] at h; exact absurd (h ▸ List.mem_cons_self _ _) h0
  · have hrest : s2.dropWhile (isdigitIn 8) = [] := by
      cases hx : s2.dropWhile (isdigitIn 8) with
      | nil => rfl
      | cons c t =>
        rw [hx] at h
        simp only [List.headD_cons] at h
        have : c ∈ s2.dropWhile (isdigitIn 8) := by rw [hx]; exact List.mem_cons_self _ _
        exact absurd (h ▸ hsub c (mem_of_mem_dropWhile this)) h0
    have hall : s2.takeWhile (isdigitIn 8) = s2 := by
      have := List.takeWhile_append_dropWhile (isdigitIn 8) s2
      rwa [hrest, List.append_nil] at this
    rw [hall] at h1
    rw [List.takeWhile_eq_self_iff] at hall
    rw [isdigitIn_eight] at hall
    simp only [Bool.and_eq_true, Bool.not_eq_true', List.all_eq_true]
    exact ⟨by simpa using h1, hall⟩

/-- The bytes of an octal numeral are white space, signs and octal digits. -/
theorem mem_octalNumeral {s : List Nat} (h : octalNumeral s = true) {x : Nat} (hx : x ∈ s) :
    isspace x = true ∨ x = 45 ∨ x = 43 ∨ isOctal x = true := by
  simp only [octalNumeral, Bool.and_eq_true, List.all_eq_true] at h
  rw [← List.takeWhile_append_dropWhile isspace s, List.mem_append] at hx
  rcases hx with hx | hx
  · left; exact List.mem_takeWhile_imp hx
  · right
    generalize s.dropWhile isspace = s1 at h hx
    cases s1 with
    | nil => simp at hx
    | cons c t =>
      simp only [List.head?_cons, List.drop_succ_cons, List.drop_zero] at h
      split_ifs at h with hc
      · rcases List.mem_cons.mp hx with rfl | hx
        · simp only [Bool.or_eq_true, beq_iff_eq, Option.some.injEq] at hc
          rcases hc with hc | hc
          · left; exact hc
          · right; left; exact hc
        · right; right; exact h.2 x hx
      · right; right; exact h.2 x hx

/-- An octal numeral holds no backslash. -/
theorem backslash_not_mem_octalNumeral {s : List Nat} (h : octalNumeral s = true) : 92 ∉ s := by
  intro hx
  rcases mem_octalNumeral h hx with h1 | h1 | h1 | h1
  · simp [isspace] at h1
  · omega
  · omega
  · simp [isOctal] at h1

/-- One step of the decoding loop at a backslash with three bytes behind it. -/
theorem unescape_backslash (d1 d2 d3 : Nat) (rest : List Nat) :
    unescape (92 :: d1 :: d2 :: d3 :: rest) =
      if (strtol [d1, d2, d3] 8).erange || endByte (strtol [d1, d2, d3] 8) != 0 then none
      else (unescape rest).map (fun out => toChar (strtol [d1, d2, d3] 8).val :: out) := by
  simp [unescape]

/-- The decoding loop dies at a backslash with fewer than three bytes behind
it. -/
theorem unescape_backslash_short {cs : List Nat} (h : cs.length < 3) :
    unescape (92 :: cs) = none := by
  rcases cs with _ | ⟨d1, _ | ⟨d2, _ | ⟨d3, rest⟩⟩⟩ <;> simp [unescape] at h ⊢
  omega

/-- A backslash that `strtol` cannot follow with an octal numeral of three
bytes stops the decoding. -/
theorem unescape_backslash_bad {cs : List Nat} (h0 : 0 ∉ cs)
    (h : cs.length < 3 ∨ octalNumeral (cs.take 3) = false) : unescape (92 :: cs) = none := by
  rcases cs with _ | ⟨d1, _ | ⟨d2, _ | ⟨d3, rest⟩⟩⟩
  · exact unescape_backslash_short (by simp)
  · exact unescape_backslash_short (by simp)
  · exact unescape_backslash_short (by simp)
  · rcases h with h | h
    · simp at h; omega
    · rw [unescape_backslash]
      have hne : endByte (strtol [d1, d2, d3] 8) ≠ 0 := by
        intro e
        have := @octalNumeral_of_endByte [d1, d2, d3] (by simp)
          (by intro hm; apply h0; simp at hm ⊢; tauto) e
        simp only [List.take_succ_cons, List.take_zero] at h
        rw [this] at h; exact absurd h (by simp)
      simp [hne]

/-- Induction behind `unescape_unreadable`, on the length of what precedes the
backslash. -/
theorem unescape_unreadable_aux : ∀ (n : Nat) (a b : List Nat), a.length ≤ n →
    0 ∉ a ++ 92 :: b → (b.length < 3 ∨ octalNumeral (b.take 3) = false) →
    unescape (a ++ 92 :: b) = none := by
  intro n
  induction n with
  | zero =>
    intro a b ha h0 hb
    have : a = [] := List.length_eq_zero.mp (Nat.le_zero.mp ha)
    subst this
    exact unescape_backslash_bad (fun h => h0 (by simp [h])) hb
  | succ n ih =>
    intro a b ha h0 hb
    cases a with
    | nil => exact unescape_backslash_bad (fun h => h0 (by simp [h])) hb
    | cons c a =>
      have h0a : 0 ∉ a ++ 92 :: b := fun h => h0 (List.mem_cons_of_mem _ h)
      have hla : a.length ≤ n := by simpa using ha
      by_cases hc : c = 92
      · subst hc
        rw [List.cons_append]
        by_cases hbad : (a ++ 92 :: b).length < 3 ∨ octalNumeral ((a ++ 92 :: b).take 3) = false
        · exact unescape_backslash_bad h0a hbad
        · have hlen : ¬ (a ++ 92 :: b).length < 3 := fun h => hbad (Or.inl h)
          have hnum : octalNumeral ((a ++ 92 :: b).take 3) = true := by
            cases hx : octalNumeral ((a ++ 92 :: b).take 3) with
            | true => rfl
            | false => exact absurd (Or.inr hx) hbad
          have h92 := backslash_not_mem_octalNumeral hnum
          rcases a with _ | ⟨d1, _ | ⟨d2, _ | ⟨d3, a⟩⟩⟩
          · exact absurd (by simp) h92
          · exact absurd (by simp) h92
          · exact absurd (by simp) h92
          · simp only [List.cons_append]
            rw [unescape_backslash]
            have := ih a b (by simp at hla; omega)
              (fun h => h0a (by simp at h ⊢; tauto)) hb
            rw [this]
            simp
      · rw [List.cons_append, unescape_cons_of_ne _ hc, ih a b hla h0a hb]
        rfl

/-- Decoding stops with the format error on a field that holds a backslash not
followed by an octal numeral of three bytes. -/
theorem unescape_unreadable {field : List Nat} (h0 : 0 ∉ field) (h : unreadable field) :
    unescape field = none := by
  obtain ⟨a, b, e, hb⟩ := h
  subst e
  exact unescape_unreadable_aux a.length a b (Nat.le_refl _) h0 hb

/-! ## Entries of the mount table -/

/-- What follows the bytes before the first `x` is empty or begins with `x`. -/
theorem dropWhile_ne_cases (x : Nat) (l : List Nat) :
    l.dropWhile (fun c => c != x) = [] ∨ ∃ r, l.dropWhile (fun c => c != x) = x :: r := by
  induction l with
  | nil => left; rfl
  | cons c l ih =>
    by_cases hc : c = x
    · right; subst hc; exact ⟨l, by simp [List.dropWhile]⟩
    · rw [List.dropWhile_cons_of_pos (by simpa using hc)]; exact ih

/-- The bytes before the first `x` do not hold `x`. -/
theorem not_mem_takeWhile_ne (x : Nat) (l : List Nat) : x ∉ l.takeWhile (fun c => c != x) := by
  intro h
  have := List.mem_takeWhile_imp h
  simp at this

/-- A line whose device field is the label and which has a mount-point field
consists of the label, a space, the field, a space and a rest. -/
theorem entry_shape {line label f : List Nat} (hd : deviceField line = label)
    (hf : mountField line = some f) :
    ∃ rest, line = label ++ 32 :: (f ++ 32 :: rest) ∧ 0 ∉ label ∧ 32 ∉ label
      ∧ 0 ∉ f ∧ 32 ∉ f := by
  have hsplit := List.takeWhile_append_dropWhile (fun c => c != 32) (cstr line)
  have h0c := zero_not_mem_cstr line
  simp only [mountField, hd] at hf
  simp only [deviceField] at hd
  rw [hd] at hsplit
  have h32l : 32 ∉ label := hd ▸ not_mem_takeWhile_ne 32 (cstr line)
  rcases dropWhile_ne_cases 32 (cstr line) with hnil | ⟨D, hD⟩
  · rw [hnil, List.append_nil] at hsplit
    rw [← hsplit] at hf
    have hnil2 : label.drop (label.length + 1) = [] := List.drop_of_length_le (by omega)
    rw [hnil2] at hf
    simp at hf
  · rw [hD] at hsplit
    rw [← hsplit] at hf h0c
    have hdrop : (label ++ 32 :: D).drop (label.length + 1) = D := by
      rw [← List.drop_drop, List.drop_left]; rfl
    rw [hdrop] at hf
    split_ifs at hf with hcont
    simp only [Option.some.injEq] at hf
    have hsplit2 := List.takeWhile_append_dropWhile (fun c => c != 32) D
    rw [hf] at hsplit2
    have h32f : 32 ∉ f := hf ▸ not_mem_takeWhile_ne 32 D
    rcases dropWhile_ne_cases 32 D with hnil2 | ⟨r, hr⟩
    · rw [hnil2, List.append_nil] at hsplit2
      rw [← hsplit2] at hcont
      exact absurd (by simpa using hcont) h32f
    · rw [hr] at hsplit2
      have hc : cstr line = label ++ 32 :: (f ++ 32 :: r) := by rw [← hsplit, ← hsplit2]
      have h0l : 0 ∉ label := fun h => h0c (by simp [h])
      have h0f : 0 ∉ f := fun h => h0c (by rw [← hsplit2]; simp [h])
      rcases eq_cstr_append line with e | ⟨raw, e⟩
      · exact ⟨r, by rw [e, hc], h0l, h32l, h0f, h32f⟩
      · exact ⟨r ++ 0 :: raw, by rw [e, hc]; simp, h0l, h32l, h0f, h32f⟩

/-- A label without a space that begins a line also begins its device field. -/
theorem prefix_deviceField {label line : List Nat} (h32 : 32 ∉ label)
    (h : label <+: cstr line) : label <+: deviceField line := by
  obtain ⟨t, ht⟩ := h
  simp only [deviceField, ← ht]
  rw [List.takeWhile_append_of_pos]
  · exact List.prefix_append _ _
  · intro c hc
    have : c ≠ 32 := fun e => h32 (e ▸ hc)
    simpa using this

/-- The device field is an initial part of the line. -/
theorem deviceField_prefix_cstr (line : List Nat) : deviceField line <+: cstr line :=
  List.takeWhile_prefix _

/-- The first entry of the table with the given device field and a mount-point
field decides the result when no line before it begins with the label. -/
theorem getmountpoint_entry {label : List Nat} {pre : List (List Nat)} {line : List Nat}
    (post : List (List Nat)) {f : List Nat}
    (hpre : ∀ x ∈ pre, ¬ label <+: cstr x)
    (hd : deviceField line = label) (hf : mountField line = some f) :
    getmountpoint label (some (pre ++ line :: post)) = mountOf f := by
  obtain ⟨rest, e, h0l, _, h0f, h32f⟩ := entry_shape hd hf
  subst e
  exact getmountpoint_selected post 32 rest hpre h0l h0f h32f

/-! ## The path buffer -/

/-- Size of allocated memory. -/
theorem length_malloc (size : Nat) (junk : Nat → Nat) : (malloc size junk).length = size := by
  simp [malloc]

/-- Storing over a stretch of a buffer replaces exactly that stretch. -/
theorem store_append (a b c data : List Nat) (h : b.length = data.length) :
    store (a ++ b ++ c) a.length data = a ++ data ++ c := by
  have e1 : (a ++ b ++ c).take a.length = a := by rw [List.append_assoc, List.take_left]
  have e2 : (a ++ b ++ c).drop (a.length + data.length) = c := by
    rw [← h, ← List.length_append, List.drop_left]
  simp only [store, e1, e2]

/-- A buffer of `n + m + 2` bytes split at the offsets `n` and `n + 1`. -/
theorem buffer_split {buf : List Nat} {n m : Nat} (h : buf.length = n + m + 2) :
    ∃ a x y c, buf = a ++ [x] ++ [y] ++ c ∧ a.length = n ∧ c.length = m := by
  refine ⟨buf.take n, (buf.drop n).headD 0, ((buf.drop n).drop 1).headD 0, buf.drop (n + 2),
    ?_, by simp; omega, by simp; omega⟩
  have h1 : buf = buf.take n ++ buf.drop n := (List.take_append_drop _ _).symm
  cases hd : buf.drop n with
  | nil => have := congrArg List.length hd; simp at this; omega
  | cons x t =>
    cases ht : t with
    | nil => have := congrArg List.length hd; simp [ht] at this; omega
    | cons y c =>
      have hc : buf.drop (n + 2) = c := by
        rw [← List.drop_drop, hd, ht]; rfl
      rw [hc]
      conv_lhs => rw [h1, hd, ht]
      simp

/-- The string built by `getfilepath` from a mount point without NUL, and the
size of the buffer, which no store exceeds. -/
theorem getfilepath_string {opt : Options} (junk : Nat → Nat) {out h : List Nat}
    (hh : opt.hole = some h) (h0 : 0 ∉ out) (h0h : 0 ∉ h) :
    cstr (getfilepath opt junk (out ++ [0]) out.length) = out ++ 47 :: h
    ∧ (getfilepath opt junk (out ++ [0]) out.length).length = out.length + h.length + 2 := by
  have hlen : (malloc (out.length + h.length + 2) junk).length = out.length + h.length + 2 :=
    length_malloc _ _
  obtain ⟨a, x, y, c, e, ha, hc⟩ := buffer_split hlen
  have hch : cstr h = h := cstr_of_not_mem h0h
  simp only [getfilepath, hh, Option.getD_some, strlen, hch, strcpy, strcat,
    cstr_append_zero [] h0, e]
  -- strcpy
  have s1 : store (a ++ [x] ++ [y] ++ c) 0 (out ++ [0]) = out ++ [0] ++ ([y] ++ c) := by
    have := store_append [] (a ++ [x]) ([y] ++ c) (out ++ [0]) (by simp [ha])
    simpa using this
  rw [s1]
  -- the separator and the NUL behind it
  have s2 : store (out ++ [0] ++ ([y] ++ c)) out.length [47] = out ++ [47] ++ ([y] ++ c) :=
    store_append out [0] ([y] ++ c) [47] rfl
  rw [s2]
  have s3 : store (out ++ [47] ++ ([y] ++ c)) (out.length + 1) [0]
      = out ++ [47] ++ [0] ++ c := by
    have := store_append (out ++ [47]) [y] c [0] rfl
    simpa using this
  rw [s3]
  -- strcat
  have hs : cstr (out ++ [47] ++ [0] ++ c) = out ++ [47] := by
    have : 0 ∉ out ++ [47] := by simp [h0]
    have := cstr_append_zero c this
    simpa using this
  rw [hs]
  have s4 : store (out ++ [47] ++ [0] ++ c) (out ++ [47]).length (h ++ [0])
      = out ++ [47] ++ (h ++ [0]) ++ c.drop h.length := by
    simp only [store]
    rw [show out ++ [47] ++ [0] ++ c = (out ++ [47]) ++ ([0] ++ c) by simp, List.take_left,
      ← List.drop_drop, List.drop_left]
    simp
  rw [s4]
  constructor
  · have : 0 ∉ out ++ [47] ++ h := by simp [h0, h0h]
    have := cstr_append_zero (c.drop h.length) this
    simpa using this
  · simp [hc]; omega

/-- What `getmountpoint` returns is a buffer of the decoded bytes and a NUL,
with the number of decoded bytes as length. -/
theorem mounted_shape {label : List Nat} {mounts : Option (List (List Nat))}
    {mp : List Nat} {mpl : Nat} (h : getmountpoint label mounts = Mount.mounted mp mpl) :
    ∃ out, mp = out ++ [0] ∧ mpl = out.length := by
  cases mounts with
  | none => simp [getmountpoint] at h
  | some table =>
    simp only [getmountpoint] at h
    cases hf : findline label table with
    | none => simp [hf] at h
    | some i =>
      simp only [hf] at h
      split at h
      · simp at h
      · split at h
        · simp at h
        · simp only [mountOf] at h
          split at h
          · simp at h
          · rename_i out _
            simp only [Mount.mounted.injEq] at h
            exact ⟨out, h.1.symm, h.2.symm⟩

/-- A label that begins a line whose device field is at least as long begins
that device field. -/
theorem prefix_deviceField_of_length {label line : List Nat}
    (hlen : label.length ≤ (deviceField line).length) (h : label <+: cstr line) :
    label <+: deviceField line :=
  List.prefix_of_prefix_length_le h (deviceField_prefix_cstr line) hlen


/-- A field without backslash decodes to itself. -/
theorem unescape_plain {m : List Nat} (h : 92 ∉ m) : unescape m = some m := by
  induction m with
  | nil => rfl
  | cons c m ih =>
    have hc : c ≠ 92 := fun e => h (by simp [e])
    rw [unescape_cons_of_ne _ hc, ih (fun e => h (List.mem_cons_of_mem _ e))]; rfl

/-- The end of `getmountpoint` on a field without backslash returns the field. -/
theorem mountOf_plain {m : List Nat} (h : 92 ∉ m) :
    mountOf m = Mount.mounted (m ++ [0]) m.length := by
  simp [mountOf, unescape_plain h]

/-- A line whose device field is neither the label nor a proper extension of
it does not begin with the label, when the label has no space. -/
theorem not_prefix_of_deviceField {label line : List Nat} (h32 : 32 ∉ label)
    (hne : deviceField line ≠ label) (hext : ¬ properExtension label (deviceField line)) :
    ¬ label <+: cstr line :=
  fun hp => hext ⟨prefix_deviceField h32 hp, hne⟩


/-! ## Matching of the label -/

/-- C1, evaluated where it fails: for the label `/dev/sda1` and a table whose
first line is that of `/dev/sda10`, the search loop stops at line 0 and
`getmountpoint` reports a mount point (the empty string, of length 0) taken
from that line, although its device field is `/dev/sda10`; the first line whose
device field is byte-for-byte the label is the second one. -/
theorem getmountpoint_selects_prefix_line :
    findline (bytes "/dev/sda1")
        [bytes "/dev/sda10 /mnt/x ext4 rw 0 0\n", bytes "/dev/sda1 /mnt/a ext4 rw 0 0\n"]
      = some 0
    ∧ getmountpoint (bytes "/dev/sda1")
        (some [bytes "/dev/sda10 /mnt/x ext4 rw 0 0\n", bytes "/dev/sda1 /mnt/a ext4 rw 0 0\n"])
      = Mount.mounted [0] 0
    ∧ deviceField (bytes "/dev/sda10 /mnt/x ext4 rw 0 0\n") = bytes "/dev/sda10"
    ∧ matcher (bytes "/dev/sda1")
        [bytes "/dev/sda10 /mnt/x ext4 rw 0 0\n", bytes "/dev/sda1 /mnt/a ext4 rw 0 0\n"]
      = some (bytes "/dev/sda1 /mnt/a ext4 rw 0 0\n") := by
  decide

/-! ## Escapes of the mount-point field -/

/-- C2: escape round trip.  For every byte sequence `b` without NUL, every
label (a C string) and every rest, `getmountpoint` on the line
`label ++ " " ++ escape b ++ " " ++ rest` returns exactly `b` (followed by the
terminating NUL) with length `|b|`. -/
theorem getmountpoint_escape_roundtrip (b label rest : List Nat)
    (hb : 0 ∉ b) (hl : 0 ∉ label) :
    getmountpoint label (some [label ++ [32] ++ escape b ++ [32] ++ rest])
      = Mount.mounted (b ++ [0]) b.length := by
  have h := @getmountpoint_selected label [] [] 32 (escape b) rest
    (by simp) hl (zero_not_mem_escape hb) (space_not_mem_escape b)
  rw [mountOf_escape] at h
  simpa using h

/-- Witness of C2: a mount point with a space, a tab and a backslash. -/
theorem getmountpoint_escape_roundtrip_witness :
    0 ∉ bytes "/mnt/my disk\t\\x" ∧ 0 ∉ bytes "/dev/sda1"
    ∧ escape (bytes "/mnt/my disk\t\\x") = bytes "/mnt/my\\040disk\\011\\134x"
    ∧ getmountpoint (bytes "/dev/sda1")
        (some [bytes "/dev/sda1" ++ [32] ++ escape (bytes "/mnt/my disk\t\\x") ++ [32]
          ++ bytes "ext4 rw 0 0\n"])
      = Mount.mounted (bytes "/mnt/my disk\t\\x" ++ [0]) (bytes "/mnt/my disk\t\\x").length :=
  ⟨by decide, by decide, by decide,
    getmountpoint_escape_roundtrip _ _ _ (by decide) (by decide)⟩

/-- C3 as stated fails: in the line `/dev/sda1 /mnt/a\+12 ext4 rw 0 0`, matched
by the label `/dev/sda1`, the mount-point field holds a backslash followed by
the three bytes `+12`, which are not all octal digits; `getmountpoint` does not
end in the format error but returns the mount point `/mnt/a` followed by the
byte 10. -/
theorem getmountpoint_signed_escape :
    findline (bytes "/dev/sda1") [bytes "/dev/sda1 /mnt/a\\+12 ext4 rw 0 0\n"] = some 0
    ∧ mountField (bytes "/dev/sda1 /mnt/a\\+12 ext4 rw 0 0\n") = some (bytes "/mnt/a\\+12")
    ∧ malformed (bytes "/mnt/a\\+12")
    ∧ getmountpoint (bytes "/dev/sda1") (some [bytes "/dev/sda1 /mnt/a\\+12 ext4 rw 0 0\n"])
      = Mount.mounted (bytes "/mnt/a\n" ++ [0]) 7 :=
  ⟨by decide, by decide, ⟨bytes "/mnt/a", bytes "+12", by decide, Or.inr (by decide)⟩,
    by decide⟩

/-- C3, amended: for every matched line (the first line that begins with the
label, its device field being the label) whose mount-point field holds a
backslash followed, inside the field, by fewer than three bytes or by three
bytes that are not an octal numeral as `strtol` reads one (optional white
space, optional sign, octal digits), `getmountpoint` ends in
`die(PROCFMTERR)` and returns no mount point. -/
theorem getmountpoint_unreadable_escape (label : List Nat) (pre : List (List Nat))
    (line : List Nat) (post : List (List Nat)) (field : List Nat)
    (hpre : ∀ x ∈ pre, ¬ label <+: cstr x)
    (hd : deviceField line = label) (hf : mountField line = some field)
    (hbad : unreadable field) :
    getmountpoint label (some (pre ++ line :: post)) = Mount.die Diag.PROCFMTERR := by
  obtain ⟨_, _, _, _, h0f, _⟩ := entry_shape hd hf
  rw [getmountpoint_entry post hpre hd hf, mountOf, unescape_unreadable h0f hbad]

/-- Witness of C3, amended: an escape cut short after two digits, in the third
line of a table. -/
theorem getmountpoint_unreadable_escape_witness :
    (∀ x ∈ [bytes "/dev/sda2 / ext4 rw 0 0\n"], ¬ bytes "/dev/sda1" <+: cstr x)
    ∧ deviceField (bytes "/dev/sda1 /mnt/a\\04 ext4 rw 0 0\n") = bytes "/dev/sda1"
    ∧ mountField (bytes "/dev/sda1 /mnt/a\\04 ext4 rw 0 0\n") = some (bytes "/mnt/a\\04")
    ∧ unreadable (bytes "/mnt/a\\04")
    ∧ getmountpoint (bytes "/dev/sda1")
        (some ([bytes "/dev/sda2 / ext4 rw 0 0\n"]
          ++ bytes "/dev/sda1 /mnt/a\\04 ext4 rw 0 0\n" :: [bytes "tmpfs /tmp tmpfs rw 0 0\n"]))
      = Mount.die Diag.PROCFMTERR :=
  ⟨by decide, by decide, by decide,
    ⟨bytes "/mnt/a", bytes "04", by decide, Or.inl (by decide)⟩,
    getmountpoint_unreadable_escape (bytes "/dev/sda1") [bytes "/dev/sda2 / ext4 rw 0 0\n"]
      (bytes "/dev/sda1 /mnt/a\\04 ext4 rw 0 0\n") [bytes "tmpfs /tmp tmpfs rw 0 0\n"]
      (bytes "/mnt/a\\04") (by decide) (by decide) (by decide)
      ⟨bytes "/mnt/a", bytes "04", by decide, Or.inl (by decide)⟩⟩

/-! ## Validation of the identifier -/

/-- C4, evaluated where it fails: the partition string `12g4` holds the byte
`g`, which is not in `UUIDCHARSET`, yet with `-u` `parsecmdargs` returns and
has built the lookup path `/dev/disk/by-uuid/12g4`: `strcspn` is 0 as soon as
the first byte is in the set. -/
theorem parsecmdargs_accepts_foreign_byte (cfg : Config) :
    UUIDCHARSET.contains 103 = false
    ∧ bytes "12g4" = [49, 50, 103, 52]
    ∧ strcspn (bytes "12g4") UUIDCHARSET = 0
    ∧ parsecmdargs cfg [bytes "dribble", bytes "-u", bytes "12g4"]
      = Except.ok
          { ball := cfg.defaultball, hole := some cfg.defaulthole, part := some (bytes "12g4"),
            uuidpath := some (bytes "/dev/disk/by-uuid/12g4"), label := [],
            pause := cfg.defaultpause, useuuid := true, daemonize := false, verbose := false } :=
  ⟨by decide, by decide, by decide, rfl⟩

/-! ## Matching and the escapes of the device field -/

/-- C5 as stated fails: the label `/dev/my disk` holds a space, the only line of
the table has the raw device field `/dev/my\040disk`, the octal-escaped
encoding of the label, and `getmountpoint` does not select the line: it returns
not mounted. -/
theorem getmountpoint_escaped_device :
    escape (bytes "/dev/my disk") = bytes "/dev/my\\040disk"
    ∧ deviceField (bytes "/dev/my\\040disk /mnt/a ext4 rw 0 0\n") = bytes "/dev/my\\040disk"
    ∧ getmountpoint (bytes "/dev/my disk") (some [bytes "/dev/my\\040disk /mnt/a ext4 rw 0 0\n"])
      = Mount.notMounted := by
  decide

/-- C5, amended: matching is done on the raw device field, which is not
decoded.  For every label that holds a space, a tab or a newline, a line whose
raw device field is the octal-escaped encoding of the label is not selected; on
a table of such lines `getmountpoint` returns not mounted. -/
theorem getmountpoint_raw_device (label : List Nat) (table : List (List Nat))
    (hesc : 32 ∈ label ∨ 9 ∈ label ∨ 10 ∈ label)
    (hlines : ∀ l ∈ table, deviceField l = escape label) :
    getmountpoint label (some table) = Mount.notMounted := by
  have hno : ∀ x ∈ table, ¬ label <+: cstr x := by
    intro x hx hp
    have hd := hlines x hx
    have hp2 : label <+: escape label := by
      rw [← hd]
      exact prefix_deviceField_of_length (by rw [hd]; exact length_le_length_escape label) hp
    have key : ∀ c, c ∈ label → escaped c = true → c ≠ 92 → False := by
      intro c hc he h92
      rcases mem_escape (hp2.subset hc) with ⟨_, h2⟩ | h1 | h1
      · rw [he] at h2; exact absurd h2 (by simp)
      · exact h92 h1
      · rcases (escaped_iff c).mp he with h | h | h | h <;> omega
    rcases hesc with h | h | h
    · exact key 32 h (by decide) (by decide)
    · exact key 9 h (by decide) (by decide)
    · exact key 10 h (by decide) (by decide)
  simp only [getmountpoint, findline_none hno]

/-- Witness of C5, amended. -/
theorem getmountpoint_raw_device_witness :
    (32 ∈ bytes "/dev/my disk" ∨ 9 ∈ bytes "/dev/my disk" ∨ 10 ∈ bytes "/dev/my disk")
    ∧ (∀ l ∈ [bytes "/dev/my\\040disk /mnt/a ext4 rw 0 0\n"],
        deviceField l = escape (bytes "/dev/my disk"))
    ∧ getmountpoint (bytes "/dev/my disk")
        (some [bytes "/dev/my\\040disk /mnt/a ext4 rw 0 0\n"]) = Mount.notMounted :=
  ⟨by decide, by decide,
    getmountpoint_raw_device (bytes "/dev/my disk")
      [bytes "/dev/my\\040disk /mnt/a ext4 rw 0 0\n"] (by decide) (by decide)⟩

/-! ## The target path -/

/-- C6 as stated fails: on the line `/dev/sda1 /mnt\000x ext4 rw 0 0` the escape
decodes to a NUL, `getmountpoint` returns the six bytes `/mnt`, NUL, `x`, and
for the hole `beacon` the path built by `getfilepath` is `/mntbeacon`: neither
the returned bytes nor the string before the NUL, followed by `/` and the
hole. -/
theorem getfilepath_after_nul :
    getmountpoint (bytes "/dev/sda1") (some [bytes "/dev/sda1 /mnt\\000x ext4 rw 0 0\n"])
      = Mount.mounted (bytes "/mnt" ++ [0] ++ bytes "x" ++ [0]) 6
    ∧ cstr (getfilepath
        { ball := 66, hole := some (bytes "beacon"), part := some (bytes "sda1"),
          uuidpath := none, label := bytes "/dev/sda1", pause := 1, useuuid := false,
          daemonize := false, verbose := false }
        (fun _ => 255) (bytes "/mnt" ++ [0] ++ bytes "x" ++ [0]) 6) = bytes "/mntbeacon"
    ∧ bytes "/mntbeacon" ≠ (bytes "/mnt" ++ [0] ++ bytes "x") ++ [47] ++ bytes "beacon"
    ∧ bytes "/mntbeacon" ≠ bytes "/mnt" ++ [47] ++ bytes "beacon" := by
  decide

/-- C6, amended: for every mount point `mp` with length `mpl` that
`getmountpoint` returns and whose `mpl` bytes hold no NUL (no escape decoded to
the byte 0), and every hole name `h`, the path built by `getfilepath` is exactly
the bytes of `mp`, a single `/` and `h`. -/
theorem getfilepath_joins (opt : Options) (junk : Nat → Nat) (label : List Nat)
    (mounts : Option (List (List Nat))) (mp : List Nat) (mpl : Nat) (h : List Nat)
    (hm : getmountpoint label mounts = Mount.mounted mp mpl)
    (hnul : 0 ∉ mp.take mpl) (hh : opt.hole = some h) (h0h : 0 ∉ h) :
    cstr (getfilepath opt junk mp mpl) = mp.take mpl ++ [47] ++ h := by
  obtain ⟨out, e1, e2⟩ := mounted_shape hm
  subst e1 e2
  rw [List.take_left] at hnul ⊢
  rw [(getfilepath_string junk hh hnul h0h).1]
  simp

/-- Witness of C6, amended: a mount point decoded from an escape. -/
theorem getfilepath_joins_witness :
    getmountpoint (bytes "/dev/sda1")
        (some [bytes "/dev/sda1 /mnt/my\\040disk ext4 rw 0 0\n"])
      = Mount.mounted (bytes "/mnt/my disk" ++ [0]) 12
    ∧ 0 ∉ (bytes "/mnt/my disk" ++ [0]).take 12
    ∧ 0 ∉ bytes "beacon"
    ∧ cstr (getfilepath
        { ball := 66, hole := some (bytes "beacon"), part := some (bytes "sda1"),
          uuidpath := none, label := bytes "/dev/sda1", pause := 1, useuuid := false,
          daemonize := false, verbose := false }
        (fun i => i + 1) (bytes "/mnt/my disk" ++ [0]) 12)
      = (bytes "/mnt/my disk" ++ [0]).take 12 ++ [47] ++ bytes "beacon" :=
  ⟨by decide, by decide, by decide,
    getfilepath_joins _ (fun i => i + 1) (bytes "/dev/sda1")
      (some [bytes "/dev/sda1 /mnt/my\\040disk ext4 rw 0 0\n"])
      (bytes "/mnt/my disk" ++ [0]) 12 (bytes "beacon") (by decide) (by decide) rfl
      (by decide)⟩

/-! ## Lookup, tie-break and the not-mounted result -/

/-- C7, evaluated where it fails: the label `/dev/my /mnt` holds a space; in
the table of the single line `/dev/my /mnt/a ext4 rw 0 0` no device field is a
proper extension of the label and no entry has the label as device field, yet
`getmountpoint` does not return not mounted: the line begins with the label, the
byte behind the label is skipped unchecked, and the mount point `a` is
returned. -/
theorem getmountpoint_label_with_space :
    (∀ l ∈ [bytes "/dev/my /mnt/a ext4 rw 0 0\n"],
        ¬ properExtension (bytes "/dev/my /mnt") (deviceField l))
    ∧ matcher (bytes "/dev/my /mnt") [bytes "/dev/my /mnt/a ext4 rw 0 0\n"] = none
    ∧ getmountpoint (bytes "/dev/my /mnt") (some [bytes "/dev/my /mnt/a ext4 rw 0 0\n"])
      = Mount.mounted (bytes "a" ++ [0]) 1 := by
  decide

/-- Where the lookup works as specified: for every table and every label
without a space such that no line's device field is a proper extension of the
label, if the first entry whose device field equals the label has an
escape-free mount-point field `m`, `getmountpoint` returns `m` with length
`|m|`; and if no entry has that device field it returns not mounted. -/
theorem getmountpoint_lookup (label : List Nat) (table : List (List Nat))
    (h32 : 32 ∉ label)
    (hext : ∀ l ∈ table, ¬ properExtension label (deviceField l)) :
    (∀ e m, matcher label table = some e → mountField e = some m → 92 ∉ m →
        getmountpoint label (some table) = Mount.mounted (m ++ [0]) m.length)
    ∧ (matcher label table = none → getmountpoint label (some table) = Mount.notMounted) := by
  constructor
  · intro e m he hm h92
    obtain ⟨hd, pre, post, et, hpre⟩ := List.find?_eq_some.mp he
    subst et
    have hno : ∀ x ∈ pre, ¬ label <+: cstr x := by
      intro x hx
      have hne : deviceField x ≠ label := by simpa using hpre x hx
      exact not_prefix_of_deviceField h32 hne (hext x (by simp [hx]))
    rw [getmountpoint_entry post hno (by simpa using hd) hm, mountOf_plain h92]
  · intro hnone
    have hall := List.find?_eq_none.mp hnone
    have hno : ∀ x ∈ table, ¬ label <+: cstr x := by
      intro x hx
      have hne : deviceField x ≠ label := by simpa using hall x hx
      exact not_prefix_of_deviceField h32 hne (hext x hx)
    simp only [getmountpoint, findline_none hno]

/-- Example of `getmountpoint_lookup`: on the table of the specification
`/dev/sdb1` gives `/mnt/b` and `/dev/sdc1` gives not mounted. -/
theorem getmountpoint_lookup_witness :
    32 ∉ bytes "/dev/sdb1"
    ∧ (∀ l ∈ [bytes "/dev/sda1 /mnt/a ext4 rw 0 0\n", bytes "/dev/sdb1 /mnt/b ext4 rw 0 0\n"],
        ¬ properExtension (bytes "/dev/sdb1") (deviceField l))
    ∧ getmountpoint (bytes "/dev/sdb1")
        (some [bytes "/dev/sda1 /mnt/a ext4 rw 0 0\n", bytes "/dev/sdb1 /mnt/b ext4 rw 0 0\n"])
      = Mount.mounted (bytes "/mnt/b" ++ [0]) (bytes "/mnt/b").length
    ∧ getmountpoint (bytes "/dev/sdc1")
        (some [bytes "/dev/sda1 /mnt/a ext4 rw 0 0\n", bytes "/dev/sdb1 /mnt/b ext4 rw 0 0\n"])
      = Mount.notMounted :=
  ⟨by decide, by decide,
    (getmountpoint_lookup (bytes "/dev/sdb1")
      [bytes "/dev/sda1 /mnt/a ext4 rw 0 0\n", bytes "/dev/sdb1 /mnt/b ext4 rw 0 0\n"]
      (by decide) (by decide)).1 (bytes "/dev/sdb1 /mnt/b ext4 rw 0 0\n") (bytes "/mnt/b")
      (by decide) (by decide) (by decide),
    (getmountpoint_lookup (bytes "/dev/sdc1")
      [bytes "/dev/sda1 /mnt/a ext4 rw 0 0\n", bytes "/dev/sdb1 /mnt/b ext4 rw 0 0\n"]
      (by decide) (by decide)).2 (by decide)⟩

/-- C8: tie-break.  In a table in which two (or more) entries have the label as
device field and no line before the first of them begins with the label,
`getmountpoint` returns what the mount-point field `f1` of the first entry
decodes to: the field itself when it has no escape.  The result is the same
whatever lines follow the first entry, so it never comes from a later one. -/
theorem getmountpoint_first_entry (label : List Nat) (pre : List (List Nat))
    (e1 : List Nat) (mid : List (List Nat)) (e2 : List Nat) (post : List (List Nat))
    (f1 : List Nat)
    (hpre : ∀ x ∈ pre, ¬ label <+: cstr x)
    (h1 : deviceField e1 = label) (_h2 : deviceField e2 = label)
    (hf1 : mountField e1 = some f1) :
    getmountpoint label (some (pre ++ e1 :: (mid ++ e2 :: post))) = mountOf f1
    ∧ (92 ∉ f1 → getmountpoint label (some (pre ++ e1 :: (mid ++ e2 :: post)))
        = Mount.mounted (f1 ++ [0]) f1.length)
    ∧ (∀ later, getmountpoint label (some (pre ++ e1 :: later))
        = getmountpoint label (some (pre ++ e1 :: (mid ++ e2 :: post)))) := by
  refine ⟨getmountpoint_entry _ hpre h1 hf1, ?_, ?_⟩
  · intro h92
    rw [getmountpoint_entry _ hpre h1 hf1, mountOf_plain h92]
  · intro later
    rw [getmountpoint_entry _ hpre h1 hf1, getmountpoint_entry _ hpre h1 hf1]

/-- Witness of C8: two entries for `/dev/sda1` with different mount points. -/
theorem getmountpoint_first_entry_witness :
    (∀ x ∈ [bytes "proc /proc proc rw 0 0\n"], ¬ bytes "/dev/sda1" <+: cstr x)
    ∧ deviceField (bytes "/dev/sda1 /mnt/first ext4 rw 0 0\n") = bytes "/dev/sda1"
    ∧ deviceField (bytes "/dev/sda1 /mnt/second ext4 rw 0 0\n") = bytes "/dev/sda1"
    ∧ mountField (bytes "/dev/sda1 /mnt/first ext4 rw 0 0\n") = some (bytes "/mnt/first")
    ∧ getmountpoint (bytes "/dev/sda1")
        (some ([bytes "proc /proc proc rw 0 0\n"]
          ++ bytes "/dev/sda1 /mnt/first ext4 rw 0 0\n"
            :: ([] ++ bytes "/dev/sda1 /mnt/second ext4 rw 0 0\n" :: [])))
      = Mount.mounted (bytes "/mnt/first" ++ [0]) (bytes "/mnt/first").length :=
  ⟨by decide, by decide, by decide, by decide,
    (getmountpoint_first_entry (bytes "/dev/sda1") [bytes "proc /proc proc rw 0 0\n"]
      (bytes "/dev/sda1 /mnt/first ext4 rw 0 0\n") []
      (bytes "/dev/sda1 /mnt/second ext4 rw 0 0\n") [] (bytes "/mnt/first")
      (by decide) (by decide) (by decide) (by decide)).2.1 (by decide)⟩

/-- C9, evaluated where it fails: in the table of the single line
`/dev/sda10 /mnt/x ext4 rw 0 0` no entry has the device field `/dev/sda1`, yet
for that label `getmountpoint` does not return not mounted: it reports the
empty mount point, with length 0. -/
theorem getmountpoint_reports_unmatched :
    (∀ l ∈ [bytes "/dev/sda10 /mnt/x ext4 rw 0 0\n"], deviceField l ≠ bytes "/dev/sda1")
    ∧ matcher (bytes "/dev/sda1") [bytes "/dev/sda10 /mnt/x ext4 rw 0 0\n"] = none
    ∧ getmountpoint (bytes "/dev/sda1") (some [bytes "/dev/sda10 /mnt/x ext4 rw 0 0\n"])
      = Mount.mounted [0] 0
    ∧ getmountpoint (bytes "/dev/sda1") (some []) = Mount.notMounted := by
  decide

/-! ## One poll cycle -/

/-- Where the end-to-end scenario goes as specified.  With the arguments
`-b 102 -h beacon -p 1 mydisk` `parsecmdargs` returns options with ball 0102
(octal), no identifier lookup and the label normalised to `/dev/mydisk`.  With
a mount table in which `/dev/mydisk /media/usb ext4 rw 0 0` is the first line
that begins with the label, one poll cycle finds the mount point `/media/usb`,
builds the path `/media/usb/beacon`, opens it, makes exactly one `write`, of
the byte 0x42, closes it and sleeps; when `write` returns 1 the first byte of
the file is 0x42, and a file that did not exist holds exactly that byte. -/
theorem poll_cycle_label_form (cfg : Config) (pre post : List (List Nat)) (tail : List Nat)
    (sys : Sys) (file : Option (List Nat))
    (hpre : ∀ x ∈ pre, ¬ bytes "/dev/mydisk" <+: cstr x)
    (hmounts : sys.mounts
      = some (pre ++ (bytes "/dev/mydisk /media/usb ext4 rw 0 0" ++ tail) :: post))
    (hopen : sys.openOk = true) :
    ∃ opt,
      parsecmdargs cfg [bytes "dribble", bytes "-b", bytes "102", bytes "-h", bytes "beacon",
        bytes "-p", bytes "1", bytes "mydisk"] = Except.ok opt
      ∧ opt.ball = 0x42 ∧ opt.hole = some (bytes "beacon") ∧ opt.useuuid = false
      ∧ opt.label = bytes "/dev/mydisk"
      ∧ getmountpoint opt.label sys.mounts = Mount.mounted (bytes "/media/usb" ++ [0]) 10
      ∧ cstr (getfilepath opt sys.junk (bytes "/media/usb" ++ [0]) 10)
        = bytes "/media/usb/beacon"
      ∧ cycle opt sys file
        = Cycle.slept opt
            (some (if sys.written = 1 then 0x42 :: (file.getD []).drop 1 else file.getD []))
            [Event.open (bytes "/media/usb/beacon"),
             Event.write (bytes "/media/usb/beacon") 0x42,
             Event.close (bytes "/media/usb/beacon"), Event.sleep 1] := by
  have hline : bytes "/dev/mydisk /media/usb ext4 rw 0 0" ++ tail
      = bytes "/dev/mydisk" ++ 32 :: (bytes "/media/usb" ++ 32 :: (bytes "ext4 rw 0 0" ++ tail)) :=
    rfl
  have hmp : getmountpoint (bytes "/dev/mydisk") sys.mounts
      = Mount.mounted (bytes "/media/usb" ++ [0]) 10 := by
    rw [hmounts, hline,
      getmountpoint_selected post 32 (bytes "ext4 rw 0 0" ++ tail) hpre (by decide) (by decide)
        (by decide)]
    rfl
  have hpath : ∀ (o : Options), o.hole = some (bytes "beacon") →
      cstr (getfilepath o sys.junk (bytes "/media/usb" ++ [0]) 10)
        = bytes "/media/usb/beacon" := by
    intro o ho
    have := (@getfilepath_string o sys.junk (bytes "/media/usb") (bytes "beacon") ho
      (by decide) (by decide)).1
    exact this
  refine ⟨{ ball := 66, hole := some (bytes "beacon"), part := some (bytes "mydisk"),
            uuidpath := none, label := bytes "/dev/mydisk", pause := 1, useuuid := false,
            daemonize := false, verbose := false },
    rfl, rfl, rfl, rfl, rfl, hmp, hpath _ rfl, ?_⟩
  have hlabel : (bytes "/dev/mydisk" != []) = true := by decide
  have hp := hpath
    { ball := 66, hole := some (bytes "beacon"), part := some (bytes "mydisk"),
      uuidpath := none, label := bytes "/dev/mydisk", pause := 1, useuuid := false,
      daemonize := false, verbose := false } rfl
  simp only [cycle, Bool.false_eq_true, if_false, hlabel, if_true, hmp, dribble,
    hopen, Bool.not_true, chatty, Bool.false_and, Bool.and_false, ballByte, toChar]
  by_cases hw : sys.written = 1
  · simp [hw, hp]
  · simp [hw, hp]

/-- Example of `poll_cycle_label_form`: the line of the scenario behind the line
of another file system, and a target file that does not exist yet. -/
theorem poll_cycle_label_form_witness :
    (∀ x ∈ [bytes "proc /proc proc rw 0 0\n"], ¬ bytes "/dev/mydisk" <+: cstr x)
    ∧ ∃ opt,
      parsecmdargs ⟨0, bytes "hole", 5⟩ [bytes "dribble", bytes "-b", bytes "102", bytes "-h",
        bytes "beacon", bytes "-p", bytes "1", bytes "mydisk"] = Except.ok opt
      ∧ cycle opt
          { realpath := none,
            mounts := some ([bytes "proc /proc proc rw 0 0\n"]
              ++ (bytes "/dev/mydisk /media/usb ext4 rw 0 0" ++ bytes "\n") :: []),
            junk := fun _ => 0, openOk := true, written := 1 } none
        = Cycle.slept opt (some [0x42])
            [Event.open (bytes "/media/usb/beacon"),
             Event.write (bytes "/media/usb/beacon") 0x42,
             Event.close (bytes "/media/usb/beacon"), Event.sleep 1] :=
  ⟨by decide,
    match poll_cycle_label_form ⟨0, bytes "hole", 5⟩ [bytes "proc /proc proc rw 0 0\n"] []
      (bytes "\n")
      { realpath := none,
        mounts := some ([bytes "proc /proc proc rw 0 0\n"]
          ++ (bytes "/dev/mydisk /media/usb ext4 rw 0 0" ++ bytes "\n") :: []),
        junk := fun _ => 0, openOk := true, written := 1 } none (by decide) rfl rfl with
    | ⟨opt, h1, _, _, _, _, _, _, h8⟩ => ⟨opt, h1, h8⟩⟩

/-- C10, evaluated where it fails: the configuration of the scenario
(`-b 102 -h beacon -p 1 mydisk`, so the label is `/dev/mydisk`) and a mount
table that contains the line `/dev/mydisk /media/usb ext4 rw 0 0` behind the
line of `/dev/mydisk2`.  The first line begins with the label, so
`getmountpoint` returns the empty mount point with length 0, `getfilepath`
builds `/beacon`, and the poll cycle writes the byte 0x42 to `/beacon`, not to
`/media/usb/beacon`; the first line whose device field is the label is the
line of the scenario. -/
theorem poll_cycle_behind_longer_name :
    parsecmdargs ⟨0, bytes "hole", 5⟩ [bytes "dribble", bytes "-b", bytes "102", bytes "-h",
        bytes "beacon", bytes "-p", bytes "1", bytes "mydisk"]
      = Except.ok
          { ball := 0x42, hole := some (bytes "beacon"), part := some (bytes "mydisk"),
            uuidpath := none, label := bytes "/dev/mydisk", pause := 1, useuuid := false,
            daemonize := false, verbose := false }
    ∧ matcher (bytes "/dev/mydisk")
        [bytes "/dev/mydisk2 /media/other ext4 rw 0 0\n",
         bytes "/dev/mydisk /media/usb ext4 rw 0 0\n"]
      = some (bytes "/dev/mydisk /media/usb ext4 rw 0 0\n")
    ∧ getmountpoint (bytes "/dev/mydisk")
        (some [bytes "/dev/mydisk2 /media/other ext4 rw 0 0\n",
               bytes "/dev/mydisk /media/usb ext4 rw 0 0\n"])
      = Mount.mounted [0] 0
    ∧ cycle
        { ball := 0x42, hole := some (bytes "beacon"), part := some (bytes "mydisk"),
          uuidpath := none, label := bytes "/dev/mydisk", pause := 1, useuuid := false,
          daemonize := false, verbose := false }
        { realpath := none,
          mounts := some [bytes "/dev/mydisk2 /media/other ext4 rw 0 0\n",
                          bytes "/dev/mydisk /media/usb ext4 rw 0 0\n"],
          junk := fun _ => 0, openOk := true, written := 1 }
        none
      = Cycle.slept
          { ball := 0x42, hole := some (bytes "beacon"), part := some (bytes "mydisk"),
            uuidpath := none, label := bytes "/dev/mydisk", pause := 1, useuuid := false,
            daemonize := false, verbose := false }
          (some [0x42])
          [Event.open (bytes "/beacon"), Event.write (bytes "/beacon") 0x42,
           Event.close (bytes "/beacon"), Event.sleep 1] :=
  ⟨rfl, by decide, by decide, by decide⟩

/-! ## Failed resolution and the writer -/

/-- C11: in a poll cycle with identifier-based resolution, when `realpath`
yields no path `getlabel` leaves the label empty and the cycle goes straight to
`sleep`: whatever the mount table is (even unreadable) there is no lookup, no
`open` and no `write`, only the not-found message in verbose mode, and the
target file is untouched. -/
theorem cycle_unresolved (opt : Options) (sys : Sys) (file : Option (List Nat))
    (huuid : opt.useuuid = true) (hreal : sys.realpath = none) :
    (getlabel opt sys).1.label = []
    ∧ cycle opt sys file
      = Cycle.slept { opt with label := [] } file
          ((if chatty opt then [Event.stdout (Msg.NOTUUID (opt.part.getD []))] else [])
            ++ [Event.sleep opt.pause])
    ∧ (∀ mounts, cycle opt { sys with mounts := mounts } file = cycle opt sys file) := by
  refine ⟨?_, ?_, ?_⟩
  · simp [getlabel, hreal]
  · simp [cycle, getlabel, huuid, hreal]
  · intro mounts
    simp [cycle, getlabel, huuid, hreal]

/-- Witness of C11: identifier mode, verbose, the link cannot be resolved and
`/proc/mounts` cannot even be opened. -/
theorem cycle_unresolved_witness :
    cycle
        { ball := 66, hole := some (bytes "beacon"), part := some (bytes "12AB-34CD"),
          uuidpath := some (bytes "/dev/disk/by-uuid/12AB-34CD"),
          label := bytes "/dev/sdb1", pause := 5, useuuid := true, daemonize := false,
          verbose := true }
        { realpath := none, mounts := none, junk := fun _ => 0, openOk := true, written := 1 }
        (some [1, 2])
      = Cycle.slept
          { ball := 66, hole := some (bytes "beacon"), part := some (bytes "12AB-34CD"),
            uuidpath := some (bytes "/dev/disk/by-uuid/12AB-34CD"),
            label := [], pause := 5, useuuid := true, daemonize := false, verbose := true }
          (some [1, 2])
          [Event.stdout (Msg.NOTUUID (bytes "12AB-34CD")), Event.sleep 5] :=
  (cycle_unresolved
    { ball := 66, hole := some (bytes "beacon"), part := some (bytes "12AB-34CD"),
      uuidpath := some (bytes "/dev/disk/by-uuid/12AB-34CD"),
      label := bytes "/dev/sdb1", pause := 5, useuuid := true, daemonize := false,
      verbose := true }
    { realpath := none, mounts := none, junk := fun _ => 0, openOk := true, written := 1 }
    (some [1, 2]) rfl rfl).2.1

/-- Once `getmountpoint` has returned a mount point the iteration reaches
`sleep`, whatever `dribble` meets. -/
theorem cycle_of_mounted {opt : Options} {sys : Sys} (file : Option (List Nat))
    {mp : List Nat} {mpl : Nat}
    (hlabel : (if opt.useuuid then (getlabel opt sys).1 else opt).label ≠ [])
    (hm : getmountpoint (if opt.useuuid then (getlabel opt sys).1 else opt).label sys.mounts
      = Mount.mounted mp mpl) :
    ∃ o f t, cycle opt sys file = Cycle.slept o f (t ++ [Event.sleep o.pause]) := by
  by_cases hu : opt.useuuid = true
  · simp only [hu, if_true] at hlabel hm
    have hl : ((getlabel opt sys).1.label != []) = true := by simpa using hlabel
    simp only [cycle, hu, if_true, hl, hm]
    exact ⟨_, _, _, rfl⟩
  · simp only [hu, if_false, Bool.false_eq_true] at hlabel hm
    have hl : (opt.label != []) = true := by simpa using hlabel
    simp only [cycle, hu, if_false, Bool.false_eq_true, hl, if_true, hm]
    exact ⟨_, _, _, rfl⟩

/-- C13: whatever `open` and `write` answer, `dribble` returns to the loop,
which goes on to `sleep` (no path of it ends in `die`), and a failure diagnostic
is among its output if and only if the operation failed and `verbose` is set
and `daemonize` is not. -/
theorem dribble_tolerates_failure (opt : Options) (fpath : List Nat) (sys : Sys)
    (file : Option (List Nat)) :
    ((dribble opt fpath sys file).2.any isFailureReport = true
      ↔ (failed sys = true ∧ opt.verbose = true ∧ opt.daemonize = false))
    ∧ (∀ (mp : List Nat) (mpl : Nat),
        (if opt.useuuid then (getlabel opt sys).1 else opt).label ≠ [] →
        getmountpoint (if opt.useuuid then (getlabel opt sys).1 else opt).label sys.mounts
          = Mount.mounted mp mpl →
        ∃ o f t, cycle opt sys file = Cycle.slept o f (t ++ [Event.sleep o.pause])) := by
  constructor
  · cases ho : sys.openOk <;> cases hv : opt.verbose <;> cases hd : opt.daemonize <;>
      by_cases hw : sys.written = 1 <;>
      simp [dribble, failed, chatty, isFailureReport, ho, hv, hd, hw]
  · intro mp mpl hl hm
    exact cycle_of_mounted file hl hm

/-- Witness of C13: verbose and not a daemon, `open` fails; the failure is
reported and the cycle goes on to `sleep`. -/
theorem dribble_tolerates_failure_witness :
    (dribble
        { ball := 66, hole := some (bytes "beacon"), part := some (bytes "sda1"),
          uuidpath := none, label := bytes "/dev/sda1", pause := 1, useuuid := false,
          daemonize := false, verbose := true }
        (bytes "/mnt/a/beacon")
        { realpath := none, mounts := some [bytes "/dev/sda1 /mnt/a ext4 ro 0 0\n"],
          junk := fun _ => 0, openOk := false, written := 0 }
        none).2.any isFailureReport = true
    ∧ ∃ o f t,
      cycle
          { ball := 66, hole := some (bytes "beacon"), part := some (bytes "sda1"),
            uuidpath := none, label := bytes "/dev/sda1", pause := 1, useuuid := false,
            daemonize := false, verbose := true }
          { realpath := none, mounts := some [bytes "/dev/sda1 /mnt/a ext4 ro 0 0\n"],
            junk := fun _ => 0, openOk := false, written := 0 }
          none
        = Cycle.slept o f (t ++ [Event.sleep o.pause]) :=
  ⟨(dribble_tolerates_failure
      { ball := 66, hole := some (bytes "beacon"), part := some (bytes "sda1"),
        uuidpath := none, label := bytes "/dev/sda1", pause := 1, useuuid := false,
        daemonize := false, verbose := true }
      (bytes "/mnt/a/beacon")
      { realpath := none, mounts := some [bytes "/dev/sda1 /mnt/a ext4 ro 0 0\n"],
        junk := fun _ => 0, openOk := false, written := 0 }
      none).1.mpr ⟨by decide, rfl, rfl⟩,
    (dribble_tolerates_failure
      { ball := 66, hole := some (bytes "beacon"), part := some (bytes "sda1"),
        uuidpath := none, label := bytes "/dev/sda1", pause := 1, useuuid := false,
        daemonize := false, verbose := true }
      (bytes "/mnt/a/beacon")
      { realpath := none, mounts := some [bytes "/dev/sda1 /mnt/a ext4 ro 0 0\n"],
        junk := fun _ => 0, openOk := false, written := 0 }
      none).2 (bytes "/mnt/a" ++ [0]) 6 (by decide) (by decide)⟩

/-- C14 as stated fails: the target file holds the three bytes 1, 2, 3; with
ball 0102 (octal), `open` and `write` succeeding, one run of `dribble` leaves
66, 2, 3 and a second run leaves the same: the file has length 3, not 1. -/
theorem dribble_keeps_tail :
    (dribble
        { ball := 66, hole := some (bytes "beacon"), part := some (bytes "sda1"),
          uuidpath := none, label := bytes "/dev/sda1", pause := 1, useuuid := false,
          daemonize := false, verbose := false }
        (bytes "/mnt/a/beacon")
        { realpath := none, mounts := none, junk := fun _ => 0, openOk := true, written := 1 }
        (some [1, 2, 3])).1 = some [66, 2, 3]
    ∧ (dribble
        { ball := 66, hole := some (bytes "beacon"), part := some (bytes "sda1"),
          uuidpath := none, label := bytes "/dev/sda1", pause := 1, useuuid := false,
          daemonize := false, verbose := false }
        (bytes "/mnt/a/beacon")
        { realpath := none, mounts := none, junk := fun _ => 0, openOk := true, written := 1 }
        (some [66, 2, 3])).1 = some [66, 2, 3]
    ∧ [66, 2, 3].length ≠ 1 := by
  decide

/-- C14, amended: writer idempotence.  With `open` and `write` succeeding, for
every initial state of the target file a second run of `dribble` with the same
path and ball leaves the file as the first run left it: the ball at offset 0
and the bytes that were behind it unchanged, as nothing truncates the file.
When the file did not exist or held at most one byte it then holds only the
single latest byte (length 1); the byte is the ball when that is in 0..255. -/
theorem dribble_idempotent (opt : Options) (fpath : List Nat) (sys : Sys)
    (file : Option (List Nat)) (hopen : sys.openOk = true) (hwrite : sys.written = 1) :
    (dribble opt fpath sys file).1 = some (ballByte opt :: (file.getD []).drop 1)
    ∧ (dribble opt fpath sys (dribble opt fpath sys file).1).1 = (dribble opt fpath sys file).1
    ∧ ((file.getD []).length ≤ 1 → (dribble opt fpath sys file).1 = some [ballByte opt])
    ∧ (0 ≤ opt.ball → opt.ball ≤ 255 → (ballByte opt : Int) = opt.ball) := by
  have h1 : (dribble opt fpath sys file).1 = some (ballByte opt :: (file.getD []).drop 1) := by
    simp [dribble, hopen, hwrite]
  refine ⟨h1, ?_, ?_, ?_⟩
  · rw [h1]; simp [dribble, hopen, hwrite]
  · intro hlen
    rw [h1]
    have : (file.getD []).drop 1 = [] := List.drop_of_length_le hlen
    rw [this]
  · intro h0 h255
    simp only [ballByte, toChar]
    rw [Int.emod_eq_of_lt h0 (by omega)]
    exact Int.toNat_of_nonneg h0

/-- Witness of C14, amended: a target file that does not exist yet. -/
theorem dribble_idempotent_witness :
    (dribble
        { ball := 66, hole := some (bytes "beacon"), part := some (bytes "sda1"),
          uuidpath := none, label := bytes "/dev/sda1", pause := 1, useuuid := false,
          daemonize := false, verbose := false }
        (bytes "/mnt/a/beacon")
        { realpath := none, mounts := none, junk := fun _ => 0, openOk := true, written := 1 }
        none).1 = some [66] :=
  (dribble_idempotent
    { ball := 66, hole := some (bytes "beacon"), part := some (bytes "sda1"),
      uuidpath := none, label := bytes "/dev/sda1", pause := 1, useuuid := false,
      daemonize := false, verbose := false }
    (bytes "/mnt/a/beacon")
    { realpath := none, mounts := none, junk := fun _ => 0, openOk := true, written := 1 }
    none rfl rfl).2.2.1 (by decide)


/-! ## Start of the mount-point field -/

/-- The offset at which parsing starts lies inside the buffer of the selected
line unless the text of the line is the label itself. -/
theorem mpstart_le_length {label : List Nat} {table : List (List Nat)} {i : Nat}
    (h : findline label table = some i) (hne : cstr (table.getD i []) ≠ label) :
    label.length + 1 ≤ (table.getD i []).length := by
  obtain ⟨pre, l, post, e, hlen, _, hl⟩ := findline_some h
  subst e
  have hget : (pre ++ l :: post).getD i [] = l := by
    rw [List.getD_eq_getElem?_getD, ← hlen, List.getElem?_append_right (Nat.le_refl _)]
    simp
  rw [hget] at hne ⊢
  have h1 : label.length ≤ (cstr l).length := hl.length_le
  have h2 : (cstr l).length ≤ l.length := (cstr_prefix_buf l).length_le
  have h3 : label.length ≠ (cstr l).length := by
    intro e
    exact hne (List.IsPrefix.eq_of_length hl e).symm
  omega

/-- C16, evaluated where it fails: the label is the whole text of the line
`/dev/sda1 / ext4 rw 0 0` with its newline, so the line is selected, and the
offset `strlen(label) + 1` is greater than the length of the line: parsing
starts behind the terminating NUL.  The same happens for the label `/dev/sda1`
and a final line `/dev/sda1` without newline. -/
theorem getmountpoint_starts_behind_line :
    findline (bytes "/dev/sda1 / ext4 rw 0 0\n") [bytes "/dev/sda1 / ext4 rw 0 0\n"] = some 0
    ∧ (bytes "/dev/sda1 / ext4 rw 0 0\n").length < (bytes "/dev/sda1 / ext4 rw 0 0\n").length + 1
    ∧ getmountpoint (bytes "/dev/sda1 / ext4 rw 0 0\n")
        (some [bytes "/dev/sda1 / ext4 rw 0 0\n"]) = Mount.overrun
    ∧ findline (bytes "/dev/sda1") [bytes "proc /proc proc rw 0 0\n", bytes "/dev/sda1"]
      = some 1
    ∧ getmountpoint (bytes "/dev/sda1")
        (some [bytes "proc /proc proc rw 0 0\n", bytes "/dev/sda1"]) = Mount.overrun := by
  decide

/-! ## The decoded bytes and their number -/

/-- On a non-empty string of digits `strtol` stops at the end, with the number
the digits denote unless that exceeds `LONG_MAX`. -/
theorem strtol_digits {base : Nat} {ds : List Nat} (hne : ds ≠ [])
    (hd : ∀ c ∈ ds, isdigitIn base c = true) :
    strtol ds base =
      if (numeralValue base ds : Int) > LONG_MAX then ⟨LONG_MAX, [], true⟩
      else ⟨numeralValue base ds, [], false⟩ := by
  obtain ⟨c, t, rfl⟩ := List.exists_cons_of_ne_nil hne
  have hc : 48 ≤ c := by
    have := hd c (List.mem_cons_self _ _)
    simp only [isdigitIn, Bool.and_eq_true, decide_eq_true_eq] at this
    exact this.1
  have hsp : isspace c = false := by
    simp only [isspace, Bool.or_eq_false_iff, Bool.and_eq_false_iff, beq_eq_false_iff_ne,
      decide_eq_false_iff_not]
    omega
  have h1 : (c :: t).dropWhile isspace = c :: t := by
    rw [List.dropWhile_cons_of_neg (by simp [hsp])]
  have h45 : ((some c == some 45) = false) := by
    simp only [beq_eq_false_iff_ne, ne_eq, Option.some.injEq]; omega
  have h43 : ((some c == some 43) = false) := by
    simp only [beq_eq_false_iff_ne, ne_eq, Option.some.injEq]; omega
  have htake : (c :: t).takeWhile (isdigitIn base) = c :: t :=
    List.takeWhile_eq_self_iff.mpr hd
  have hdrop : (c :: t).dropWhile (isdigitIn base) = [] :=
    List.dropWhile_eq_nil_iff.mpr hd
  have hmin : ¬ ((numeralValue base (c :: t) : Int) < LONG_MIN) := by
    have : (0 : Int) ≤ (numeralValue base (c :: t) : Int) := Int.ofNat_nonneg _
    simp only [LONG_MIN]; omega
  simp only [strtol, h1, List.head?_cons, h45, h43, Bool.or_self, Bool.false_eq_true, if_false,
    htake, hdrop, List.isEmpty_cons]
  simp only [numeralValue] at hmin ⊢
  split_ifs <;> rfl

/-- The escape of three octal digits is read by `strtol` as their value. -/
theorem strtol_octal3 {d1 d2 d3 : Nat} (h1 : d1 < 8) (h2 : d2 < 8) (h3 : d3 < 8) :
    strtol [48 + d1, 48 + d2, 48 + d3] 8
      = ⟨((64 * d1 + 8 * d2 + d3 : Nat) : Int), [], false⟩ := by
  have hd : ∀ c ∈ [48 + d1, 48 + d2, 48 + d3], isdigitIn 8 c = true := by
    intro c hc
    simp only [List.mem_cons, List.mem_singleton, List.not_mem_nil, or_false] at hc
    simp only [isdigitIn, Bool.and_eq_true, decide_eq_true_eq]
    omega
  have hv : numeralValue 8 [48 + d1, 48 + d2, 48 + d3] = 64 * d1 + 8 * d2 + d3 := by
    simp only [numeralValue, List.foldl]
    omega
  rw [strtol_digits (by simp) hd, hv, if_neg]
  simp only [LONG_MAX]
  omega

/-- One step of the decoding loop at an escape of three octal digits. -/
theorem unescape_octal {d1 d2 d3 : Nat} (h1 : d1 < 8) (h2 : d2 < 8) (h3 : d3 < 8)
    (rest : List Nat) :
    unescape (92 :: (48 + d1) :: (48 + d2) :: (48 + d3) :: rest)
      = (unescape rest).map (fun out => (64 * d1 + 8 * d2 + d3) % 256 :: out) := by
  rw [unescape_backslash, strtol_octal3 h1 h2 h3]
  have hv : toChar ((64 * d1 + 8 * d2 + d3 : Nat) : Int) = (64 * d1 + 8 * d2 + d3) % 256 := by
    simp only [toChar]
    omega
  simp only [endByte, List.headD_nil, bne_self_eq_false, Bool.or_self, Bool.false_eq_true,
    if_false, hv]

/-- C17: in a mount-point field made of bytes other than the backslash and of
escapes `\d1d2d3` of three octal digits, every escape decodes to exactly one
byte, of value `(64*d1 + 8*d2 + d3) mod 256`, and every other byte is copied
unchanged, in order; `getmountpoint` returns these bytes and their number. -/
theorem unescape_tokens (ts : List Token) (h : ∀ t ∈ ts, wellFormed t = true) :
    unescape (render ts) = some (ts.map tokenValue)
    ∧ mountOf (render ts) = Mount.mounted (ts.map tokenValue ++ [0]) ts.length := by
  have key : unescape (render ts) = some (ts.map tokenValue) := by
    induction ts with
    | nil => rfl
    | cons t ts ih =>
      have ih2 := ih (fun x hx => h x (List.mem_cons_of_mem _ hx))
      have ht := h t (List.mem_cons_self _ _)
      cases t with
      | plain c =>
        have hc : c ≠ 92 := by simpa [wellFormed] using ht
        simp only [render, renderToken, List.singleton_append, List.map_cons, tokenValue]
        rw [unescape_cons_of_ne _ hc, ih2]; rfl
      | octal d1 d2 d3 =>
        simp only [wellFormed, Bool.and_eq_true, decide_eq_true_eq] at ht
        simp only [render, renderToken, List.cons_append, List.nil_append, List.map_cons,
          tokenValue]
        rw [unescape_octal ht.1.1 ht.1.2 ht.2, ih2]; rfl
  exact ⟨key, by simp [mountOf, key]⟩

/-- Witness of C17: the field `a\040b\777` decodes to `a`, space, `b` and the
byte 255. -/
theorem unescape_tokens_witness :
    render [Token.plain 97, Token.octal 0 4 0, Token.plain 98, Token.octal 7 7 7]
      = bytes "a\\040b\\777"
    ∧ unescape (bytes "a\\040b\\777") = some [97, 32, 98, 255] :=
  ⟨by decide,
    (unescape_tokens [Token.plain 97, Token.octal 0 4 0, Token.plain 98, Token.octal 7 7 7]
      (by decide)).1⟩

/-- A byte that is not a backslash is no escape. -/
theorem escapesDecoded_cons_of_ne {c : Nat} (cs : List Nat) (hc : c ≠ 92) :
    escapesDecoded (c :: cs) = escapesDecoded cs := by
  rcases cs with _ | ⟨d1, _ | ⟨d2, _ | ⟨d3, rest⟩⟩⟩ <;> simp [escapesDecoded, hc]

/-- A backslash with three bytes behind it counts as one escape. -/
theorem escapesDecoded_backslash (d1 d2 d3 : Nat) (rest : List Nat) :
    escapesDecoded (92 :: d1 :: d2 :: d3 :: rest) = escapesDecoded rest + 1 := by
  simp [escapesDecoded]

/-- Every iteration of the decoding loop writes one byte and consumes one byte,
or four at an escape. -/
theorem length_unescape : ∀ (n : Nat) (field out : List Nat), field.length ≤ n →
    unescape field = some out → out.length + 3 * escapesDecoded field = field.length := by
  intro n
  induction n with
  | zero =>
    intro field out hn h
    have : field = [] := List.length_eq_zero.mp (Nat.le_zero.mp hn)
    subst this
    simp only [unescape, Option.some.injEq] at h
    subst h; rfl
  | succ n ih =>
    intro field out hn h
    cases field with
    | nil =>
      simp only [unescape, Option.some.injEq] at h
      subst h; rfl
    | cons c cs =>
      by_cases hc : c = 92
      · subst hc
        rcases cs with _ | ⟨d1, _ | ⟨d2, _ | ⟨d3, rest⟩⟩⟩
        · rw [unescape_backslash_short (by simp)] at h; exact absurd h (by simp)
        · rw [unescape_backslash_short (by simp)] at h; exact absurd h (by simp)
        · rw [unescape_backslash_short (by simp)] at h; exact absurd h (by simp)
        · rw [unescape_backslash] at h
          split_ifs at h
          cases hr : unescape rest with
          | none => rw [hr] at h; exact absurd h (by simp)
          | some o =>
            rw [hr] at h
            simp only [Option.map_some', Option.some.injEq] at h
            subst h
            have := ih rest o (by simp at hn; omega) hr
            rw [escapesDecoded_backslash]
            simp only [List.length_cons]
            omega
      · rw [unescape_cons_of_ne _ hc] at h
        cases hr : unescape cs with
        | none => rw [hr] at h; exact absurd h (by simp)
        | some o =>
          rw [hr] at h
          simp only [Option.map_some', Option.some.injEq] at h
          subst h
          have := ih cs o (by simpa using hn) hr
          rw [escapesDecoded_cons_of_ne _ hc]
          simp only [List.length_cons]
          omega

/-- When `getmountpoint` returns a mount point it is the decoding of the raw
field between `mpstart` and `mpend`. -/
theorem mpfield_of_mounted {label : List Nat} {mounts : Option (List (List Nat))}
    {mp : List Nat} {mpl : Nat} (h : getmountpoint label mounts = Mount.mounted mp mpl) :
    ∃ field, mpfield label mounts = some field ∧ mountOf field = Mount.mounted mp mpl := by
  cases mounts with
  | none => simp [getmountpoint] at h
  | some table =>
    simp only [getmountpoint] at h
    simp only [mpfield]
    cases hf : findline label table with
    | none => simp [hf] at h
    | some i =>
      simp only [hf] at h ⊢
      split at h
      · simp at h
      · rename_i hlen
        rw [if_neg hlen]
        split at h
        · simp at h
        · exact ⟨_, rfl, h⟩

/-- C18: for every matched line on which decoding succeeds, the length that
`getmountpoint` returns is the length of the raw mount-point field minus three
times the number of escapes decoded; so it does not exceed the length of the
raw field, and the decoded bytes with their terminating NUL fit in the buffer
of raw length + 1 bytes allocated for them. -/
theorem getmountpoint_length (label : List Nat) (mounts : Option (List (List Nat)))
    (mp : List Nat) (mpl : Nat) (h : getmountpoint label mounts = Mount.mounted mp mpl) :
    ∃ field, mpfield label mounts = some field
      ∧ mpl + 3 * escapesDecoded field = field.length
      ∧ mpl ≤ field.length
      ∧ mp.length = mpl + 1
      ∧ mp.length ≤ field.length + 1 := by
  obtain ⟨field, hf, hm⟩ := mpfield_of_mounted h
  refine ⟨field, hf, ?_⟩
  simp only [mountOf] at hm
  cases hu : unescape field with
  | none => rw [hu] at hm; exact absurd hm (by simp)
  | some out =>
    rw [hu] at hm
    simp only [Mount.mounted.injEq] at hm
    obtain ⟨rfl, rfl⟩ := hm
    have hlen := length_unescape field.length field out (Nat.le_refl _) hu
    refine ⟨hlen, by omega, by simp, ?_⟩
    simp only [List.length_append, List.length_singleton]
    omega

/-- Witness of C18: a field of 16 bytes with two escapes gives 10 bytes. -/
theorem getmountpoint_length_witness :
    getmountpoint (bytes "/dev/sda1")
        (some [bytes "/dev/sda1 /mnt/a\\040b\\134c ext4 rw 0 0\n"])
      = Mount.mounted (bytes "/mnt/a b\\c" ++ [0]) 10
    ∧ ∃ field, mpfield (bytes "/dev/sda1")
          (some [bytes "/dev/sda1 /mnt/a\\040b\\134c ext4 rw 0 0\n"]) = some field
      ∧ 10 + 3 * escapesDecoded field = field.length
      ∧ 10 ≤ field.length
      ∧ (bytes "/mnt/a b\\c" ++ [0]).length = 10 + 1
      ∧ (bytes "/mnt/a b\\c" ++ [0]).length ≤ field.length + 1 :=
  ⟨by decide,
    getmountpoint_length (bytes "/dev/sda1")
      (some [bytes "/dev/sda1 /mnt/a\\040b\\134c ext4 rw 0 0\n"])
      (bytes "/mnt/a b\\c" ++ [0]) 10 (by decide)⟩

/-! ## Normalisation and length of the label -/

/-- The string of `/dev/` followed by `p`. -/
theorem strlen_DEV_append (p : List Nat) : strlen (DEV ++ p) = DEV.length + strlen p := by
  simp only [strlen]
  rw [cstr_append p (by decide), List.length_append]

/-- The test `strstr(opt.part, DEV) != opt.part` of `parsecmdargs`. -/
theorem strstr_DEV (p : List Nat) : (strstr p DEV != some 0) = !DEV.isPrefixOf p := by
  by_cases h : DEV <+: p
  · have h1 := (strstr_zero_iff p DEV).mpr h
    have h2 := List.isPrefixOf_iff_prefix.mpr h
    simp [h1, h2]
  · have h1 : strstr p DEV ≠ some 0 := fun e => h ((strstr_zero_iff p DEV).mp e)
    have h2 : DEV.isPrefixOf p = false := by
      cases hx : DEV.isPrefixOf p with
      | false => rfl
      | true => exact absurd (List.isPrefixOf_iff_prefix.mp hx) h
    simp [h1, h2]

/-- The checks behind the loop in label form: the label-too-long error when the
normalised label and its NUL exceed `PATH_MAX`, else the normalised label is
stored and the hole gets its default if it is still NULL. -/
theorem checkargs_label (cfg : Config) {opt : Options} {p : List Nat}
    (hp : opt.part = some p) (hu : opt.useuuid = false) :
    checkargs cfg opt =
      if PATH_MAX < strlen (normalise p) + 1 then Except.error (Exit.failure Diag.LABELERR)
      else Except.ok
        { opt with label := normalise p, hole := some (opt.hole.getD cfg.defaulthole) } := by
  simp only [checkargs, hp, hu, Bool.false_eq_true, if_false, strstr_DEV, normalise, sizeofDEV]
  by_cases hpre : DEV.isPrefixOf p = true
  · simp only [hpre, Bool.not_true, Bool.false_eq_true, if_false, if_true]
    by_cases hlen : PATH_MAX < strlen p + 1
    · simp [hlen, Except.map]
    · simp only [gt_iff_lt, hlen, if_false, Except.map]
      cases hh : opt.hole <;> simp
  · simp only [hpre, Bool.not_false, if_true, Bool.false_eq_true, if_false, strlen_DEV_append]
    by_cases hlen : PATH_MAX < strlen p + 1
    · have : PATH_MAX < DEV.length + strlen p + 1 := by omega
      simp [hlen, this, Except.map]
    · by_cases hlen2 : PATH_MAX < DEV.length + 1 + strlen p
      · have : PATH_MAX < DEV.length + strlen p + 1 := by omega
        simp [hlen, hlen2, this, Except.map]
      · have : ¬ PATH_MAX < DEV.length + strlen p + 1 := by omega
        simp only [gt_iff_lt, hlen, if_false, hlen2, this, Except.map]
        cases hh : opt.hole <;> simp

/-- Function `parsecmdargs` is the loop followed by the checks. -/
theorem parsecmdargs_of_loop {cfg : Config} {argv : List (List Nat)} {opt : Options}
    (h : argloop (optInit cfg) Pending.nothing argv.tail = Except.ok opt) :
    parsecmdargs cfg argv = checkargs cfg opt := by
  simp only [parsecmdargs, h]

/-- When `parsecmdargs` returns, the loop returned and the checks passed. -/
theorem loop_of_parsecmdargs {cfg : Config} {argv : List (List Nat)} {o : Options}
    (h : parsecmdargs cfg argv = Except.ok o) :
    ∃ opt, argloop (optInit cfg) Pending.nothing argv.tail = Except.ok opt
      ∧ checkargs cfg opt = Except.ok o := by
  simp only [parsecmdargs] at h
  cases hl : argloop (optInit cfg) Pending.nothing argv.tail with
  | error e => rw [hl] at h; exact absurd h (by simp)
  | ok opt => rw [hl] at h; exact ⟨opt, rfl, h⟩

/-- The normalised label begins with `/dev/`. -/
theorem DEV_prefix_normalise (p : List Nat) : DEV <+: normalise p := by
  simp only [normalise]
  split
  · rename_i h; exact List.isPrefixOf_iff_prefix.mp h
  · exact List.prefix_append _ _

/-- Normalising a normalised label changes nothing. -/
theorem normalise_normalise (p : List Nat) : normalise (normalise p) = normalise p := by
  have h := List.isPrefixOf_iff_prefix.mpr (DEV_prefix_normalise p)
  conv_lhs => rw [normalise, if_pos h]

/-- C12: label normalisation.  Whenever `parsecmdargs` returns in label form,
with the partition string `p`, the stored label is `p` when `p` begins with
`/dev/` and `/dev/` followed by `p` otherwise; hence the label is not empty, it
begins with `/dev/`, and normalising it again returns it unchanged. -/
theorem parsecmdargs_label (cfg : Config) (argv : List (List Nat)) (o : Options)
    (h : parsecmdargs cfg argv = Except.ok o) (hu : o.useuuid = false) :
    ∃ p, o.part = some p
      ∧ o.label = (if DEV <+: p then p else DEV ++ p)
      ∧ o.label ≠ []
      ∧ DEV <+: o.label
      ∧ normalise o.label = o.label := by
  obtain ⟨opt, _, hc⟩ := loop_of_parsecmdargs h
  cases hp : opt.part with
  | none => simp [checkargs, hp] at hc
  | some p =>
    have hu2 : opt.useuuid = false := by
      cases hx : opt.useuuid with
      | false => rfl
      | true =>
        simp only [checkargs, hp, hx, if_true] at hc
        split at hc
        · simp [Except.map] at hc
        · simp only [Except.map, Except.ok.injEq] at hc
          split at hc <;> (subst hc; simp [hx] at hu)
    rw [checkargs_label cfg hp hu2] at hc
    split at hc
    · exact absurd hc (by simp)
    · simp only [Except.ok.injEq] at hc
      subst hc
      refine ⟨p, hp, ?_, ?_, DEV_prefix_normalise p, normalise_normalise p⟩
      · simp only [normalise]
        by_cases hx : DEV <+: p
        · simp [hx, List.isPrefixOf_iff_prefix.mpr hx]
        · have : DEV.isPrefixOf p = false := by
            cases hy : DEV.isPrefixOf p with
            | false => rfl
            | true => exact absurd (List.isPrefixOf_iff_prefix.mp hy) hx
          simp [hx, this]
      · intro e
        have := DEV_prefix_normalise p
        simp only at e
        rw [e] at this
        simp [DEV] at this

/-- Witness of C12: the bare device name `sdb1` is stored as `/dev/sdb1`. -/
theorem parsecmdargs_label_witness :
    ∃ o, parsecmdargs ⟨0, bytes "hole", 5⟩ [bytes "dribble", bytes "sdb1"] = Except.ok o
      ∧ o.useuuid = false
      ∧ o.label = bytes "/dev/sdb1"
      ∧ ∃ p, o.part = some p
        ∧ o.label = (if DEV <+: p then p else DEV ++ p)
        ∧ o.label ≠ []
        ∧ DEV <+: o.label
        ∧ normalise o.label = o.label :=
  ⟨{ ball := 0, hole := some (bytes "hole"), part := some (bytes "sdb1"),
     uuidpath := none, label := bytes "/dev/sdb1", pause := 5, useuuid := false,
     daemonize := false, verbose := false },
    rfl, rfl, rfl,
    parsecmdargs_label ⟨0, bytes "hole", 5⟩ [bytes "dribble", bytes "sdb1"]
      { ball := 0, hole := some (bytes "hole"), part := some (bytes "sdb1"),
        uuidpath := none, label := bytes "/dev/sdb1", pause := 5, useuuid := false,
        daemonize := false, verbose := false } rfl rfl⟩

/-- C19: in label form, with the partition string `p` left by the option loop,
`parsecmdargs` exits with the label-too-long error exactly when the normalised
label together with its terminating NUL does not fit in `PATH_MAX` bytes; and
whenever it returns, the label is the normalised one and
`strlen(label) + 1 <= PATH_MAX`, so the copy into `label[PATH_MAX]` stays in
bounds. -/
theorem parsecmdargs_label_fits (cfg : Config) (argv : List (List Nat)) (opt : Options)
    (p : List Nat)
    (hloop : argloop (optInit cfg) Pending.nothing argv.tail = Except.ok opt)
    (hp : opt.part = some p) (hu : opt.useuuid = false) :
    (parsecmdargs cfg argv = Except.error (Exit.failure Diag.LABELERR)
      ↔ PATH_MAX < strlen (normalise p) + 1)
    ∧ (∀ o, parsecmdargs cfg argv = Except.ok o →
        o.label = normalise p ∧ strlen o.label + 1 ≤ PATH_MAX) := by
  rw [parsecmdargs_of_loop hloop, checkargs_label cfg hp hu]
  by_cases hlen : PATH_MAX < strlen (normalise p) + 1
  · simp [hlen]
  · simp only [hlen, if_false, reduceCtorEq, false_iff, not_false_eq_true, Except.ok.injEq,
      true_and]
    intro o ho
    subst ho
    exact ⟨rfl, by simp only; omega⟩

/-- Witness of C19: a short device name. -/
theorem parsecmdargs_label_fits_witness :
    ¬ parsecmdargs ⟨0, bytes "hole", 5⟩ [bytes "dribble", bytes "sdb1"]
        = Except.error (Exit.failure Diag.LABELERR)
    ∧ strlen (normalise (bytes "sdb1")) + 1 ≤ PATH_MAX :=
  ⟨fun e =>
      absurd ((parsecmdargs_label_fits ⟨0, bytes "hole", 5⟩ [bytes "dribble", bytes "sdb1"]
        { ball := 0, hole := none, part := some (bytes "sdb1"), uuidpath := none, label := [],
          pause := 5, useuuid := false, daemonize := false, verbose := false }
        (bytes "sdb1") rfl rfl rfl).1.mp e) (by decide),
    by decide⟩

/-! ## Range of the configuration -/

/-- Case `b` returns only with a ball in 0..255 and changes nothing else. -/
theorem setball_ok {opt o : Options} {v : List Nat} (h : setball opt v = Except.ok o) :
    o = { opt with ball := o.ball } ∧ 0 ≤ o.ball ∧ o.ball ≤ UCHAR_MAX := by
  simp only [setball] at h
  split at h
  · exact absurd h (by simp)
  · rename_i hc
    simp only [Except.ok.injEq] at h
    subst h
    simp only [Bool.or_eq_true, bne_iff_ne, ne_eq, decide_eq_true_eq, not_or, not_lt] at hc
    exact ⟨rfl, hc.1.2, by simpa using hc.2⟩

/-- Case `p` returns only with a pause in 0..`UINT_MAX` and changes nothing
else. -/
theorem setpause_ok {opt o : Options} {v : List Nat} (h : setpause opt v = Except.ok o) :
    o = { opt with pause := o.pause } ∧ 0 ≤ o.pause ∧ o.pause ≤ UINT_MAX := by
  simp only [setpause] at h
  split at h
  · exact absurd h (by simp)
  · rename_i hc
    simp only [Except.ok.injEq] at h
    subst h
    simp only [Bool.or_eq_true, bne_iff_ne, ne_eq, decide_eq_true_eq, not_or, not_lt] at hc
    exact ⟨rfl, hc.1.2, by simpa using hc.2⟩

/-- Case `b` keeps the range of the options and the hole. -/
theorem setball_keeps {opt o : Options} {v : List Nat} (h : setball opt v = Except.ok o) :
    (inRange opt → inRange o) ∧ o.hole = opt.hole := by
  obtain ⟨e, h0, h1⟩ := setball_ok h
  constructor
  · intro hr
    rw [e]
    exact ⟨h0, h1, hr.2.2.1, hr.2.2.2⟩
  · rw [e]

/-- Case `p` keeps the range of the options and the hole. -/
theorem setpause_keeps {opt o : Options} {v : List Nat} (h : setpause opt v = Except.ok o) :
    (inRange opt → inRange o) ∧ o.hole = opt.hole := by
  obtain ⟨e, h0, h1⟩ := setpause_ok h
  constructor
  · intro hr
    rw [e]
    exact ⟨hr.1, hr.2.1, h0, h1⟩
  · rw [e]

/-- The options of one argument keep the range; without the letter `h` they
keep the hole and ask for no hole value. -/
theorem mergedarg_keeps : ∀ (cs : List Nat) (opt o : Options) (pending : Pending),
    mergedarg opt cs = Except.ok (o, pending) →
    (inRange opt → inRange o)
    ∧ (104 ∉ cs → o.hole = opt.hole ∧ pending ≠ Pending.hole) := by
  intro cs
  induction cs with
  | nil =>
    intro opt o pending h
    simp only [mergedarg, Except.ok.injEq, Prod.mk.injEq] at h
    obtain ⟨rfl, rfl⟩ := h
    exact ⟨id, fun _ => ⟨rfl, by simp⟩⟩
  | cons c cs ih =>
    intro opt o pending h
    simp only [mergedarg] at h
    split_ifs at h with hb hne hh hne2 hp hne3 hu hd hv hm
    · cases hs : setball opt cs with
      | error e => rw [hs] at h; simp [Except.map] at h
      | ok o2 =>
        rw [hs] at h
        simp only [Except.map, Except.ok.injEq, Prod.mk.injEq] at h
        obtain ⟨rfl, rfl⟩ := h
        exact ⟨(setball_keeps hs).1, fun _ => ⟨(setball_keeps hs).2, by simp⟩⟩
    · simp only [Except.ok.injEq, Prod.mk.injEq] at h
      obtain ⟨rfl, rfl⟩ := h
      exact ⟨id, fun _ => ⟨rfl, by simp⟩⟩
    · simp only [Except.ok.injEq, Prod.mk.injEq] at h
      obtain ⟨rfl, rfl⟩ := h
      exact ⟨fun hr => hr, fun hn => absurd (by simp [hh]) hn⟩
    · simp only [Except.ok.injEq, Prod.mk.injEq] at h
      obtain ⟨rfl, rfl⟩ := h
      exact ⟨id, fun hn => absurd (by simp [hh]) hn⟩
    · cases hs : setpause opt cs with
      | error e => rw [hs] at h; simp [Except.map] at h
      | ok o2 =>
        rw [hs] at h
        simp only [Except.map, Except.ok.injEq, Prod.mk.injEq] at h
        obtain ⟨rfl, rfl⟩ := h
        exact ⟨(setpause_keeps hs).1, fun _ => ⟨(setpause_keeps hs).2, by simp⟩⟩
    · simp only [Except.ok.injEq, Prod.mk.injEq] at h
      obtain ⟨rfl, rfl⟩ := h
      exact ⟨id, fun _ => ⟨rfl, by simp⟩⟩
    · obtain ⟨h1, h2⟩ := ih _ _ _ h
      exact ⟨fun hr => h1 hr, fun hn => h2 (fun e => hn (List.mem_cons_of_mem _ e))⟩
    · obtain ⟨h1, h2⟩ := ih _ _ _ h
      exact ⟨fun hr => h1 hr, fun hn => h2 (fun e => hn (List.mem_cons_of_mem _ e))⟩
    · obtain ⟨h1, h2⟩ := ih _ _ _ h
      exact ⟨fun hr => h1 hr, fun hn => h2 (fun e => hn (List.mem_cons_of_mem _ e))⟩

/-- The option loop keeps the range of the options; when option `-h` is absent
it keeps the hole. -/
theorem argloop_keeps : ∀ (args : List (List Nat)) (opt o : Options) (pending : Pending),
    argloop opt pending args = Except.ok o →
    (inRange opt → inRange o)
    ∧ (holeAbsent args → pending ≠ Pending.hole → o.hole = opt.hole) := by
  intro args
  induction args with
  | nil =>
    intro opt o pending h
    cases pending <;> simp only [argloop, Except.ok.injEq, reduceCtorEq] at h
    subst h
    exact ⟨id, fun _ _ => rfl⟩
  | cons a rest ih =>
    intro opt o pending h
    have habs : holeAbsent (a :: rest) → holeAbsent rest :=
      fun ha x hx => ha x (List.mem_cons_of_mem _ hx)
    cases pending with
    | nothing =>
      simp only [argloop] at h
      split_ifs at h with hdash
      · cases hm : mergedarg opt a.tail with
        | error e => rw [hm] at h; exact absurd h (by simp)
        | ok r =>
          obtain ⟨o2, pending2⟩ := r
          rw [hm] at h
          simp only at h
          obtain ⟨h1, h2⟩ := mergedarg_keeps _ _ _ _ hm
          obtain ⟨h3, h4⟩ := ih _ _ _ h
          refine ⟨fun hr => h3 (h1 hr), fun ha _ => ?_⟩
          have hn : 104 ∉ a.tail := fun e => ha a (List.mem_cons_self _ _) hdash
            (List.mem_of_mem_tail e)
          rw [h4 (habs ha) (h2 hn).2, (h2 hn).1]
      · obtain ⟨h3, h4⟩ := ih _ _ _ h
        exact ⟨fun hr => h3 hr, fun ha _ => h4 (habs ha) (by simp)⟩
    | ball =>
      simp only [argloop] at h
      cases hs : setball opt a with
      | error e => rw [hs] at h; exact absurd h (by simp)
      | ok o2 =>
        rw [hs] at h
        simp only at h
        obtain ⟨h3, h4⟩ := ih _ _ _ h
        refine ⟨fun hr => h3 ((setball_keeps hs).1 hr), fun ha _ => ?_⟩
        rw [h4 (habs ha) (by simp), (setball_keeps hs).2]
    | hole =>
      simp only [argloop] at h
      obtain ⟨h3, _⟩ := ih _ _ _ h
      exact ⟨fun hr => h3 hr, fun _ hp => absurd rfl hp⟩
    | pause =>
      simp only [argloop] at h
      cases hs : setpause opt a with
      | error e => rw [hs] at h; exact absurd h (by simp)
      | ok o2 =>
        rw [hs] at h
        simp only at h
        obtain ⟨h3, h4⟩ := ih _ _ _ h
        refine ⟨fun hr => h3 ((setpause_keeps hs).1 hr), fun ha _ => ?_⟩
        rw [h4 (habs ha) (by simp), (setpause_keeps hs).2]

/-- The checks behind the loop leave ball and pause alone, set the hole and
return only when the partition is set. -/
theorem checkargs_keeps {cfg : Config} {opt o : Options}
    (h : checkargs cfg opt = Except.ok o) :
    o.ball = opt.ball ∧ o.pause = opt.pause ∧ o.part = opt.part ∧ opt.part ≠ none
    ∧ o.hole = some (opt.hole.getD cfg.defaulthole) := by
  cases hp : opt.part with
  | none => simp [checkargs, hp] at h
  | some p =>
    simp only [checkargs, hp] at h
    split_ifs at h
    · simp [Except.map] at h
    · simp only [Except.map, Except.ok.injEq] at h
      subst h
      cases hh : opt.hole <;> simp [hh]
    · simp [Except.map] at h
    · simp [Except.map] at h
    · simp only [Except.map, Except.ok.injEq] at h
      subst h
      cases hh : opt.hole <;> simp [hh]
    · simp only [Except.map, Except.ok.injEq] at h
      subst h
      cases hh : opt.hole <;> simp [hh]

/-- On a minus sign followed by a non-empty string of digits `strtol` stops at
the end, with the negated number unless that is below `LONG_MIN`. -/
theorem strtol_neg_digits {base : Nat} {ds : List Nat} (hne : ds ≠ [])
    (hd : ∀ c ∈ ds, isdigitIn base c = true) :
    strtol (45 :: ds) base =
      if -(numeralValue base ds : Int) < LONG_MIN then ⟨LONG_MIN, [], true⟩
      else ⟨-(numeralValue base ds : Int), [], false⟩ := by
  obtain ⟨c, t, rfl⟩ := List.exists_cons_of_ne_nil hne
  have h1 : (45 :: c :: t).dropWhile isspace = 45 :: c :: t := by
    rw [List.dropWhile_cons_of_neg (by decide)]
  have htake : (c :: t).takeWhile (isdigitIn base) = c :: t :=
    List.takeWhile_eq_self_iff.mpr hd
  have hdrop : (c :: t).dropWhile (isdigitIn base) = [] :=
    List.dropWhile_eq_nil_iff.mpr hd
  have hmax : ¬ (-(numeralValue base (c :: t) : Int) > LONG_MAX) := by
    have : (0 : Int) ≤ (numeralValue base (c :: t) : Int) := Int.ofNat_nonneg _
    simp only [LONG_MAX]; omega
  simp only [strtol, h1, List.head?_cons, beq_self_eq_true, Bool.true_or, if_true,
    List.drop_succ_cons, List.drop_zero, htake, hdrop, List.isEmpty_cons, Bool.false_eq_true,
    if_false]
  simp only [numeralValue] at hmax ⊢
  split_ifs <;> rfl

/-- Case `b` dies on an octal number above 0377 and on a negative one. -/
theorem setball_rejects (opt : Options) {ds : List Nat} (hne : ds ≠ [])
    (hd : ∀ c ∈ ds, isOctal c = true) :
    (255 < numeralValue 8 ds → setball opt ds = Except.error (Exit.failure Diag.BALLERR))
    ∧ (0 < numeralValue 8 ds →
        setball opt (45 :: ds) = Except.error (Exit.failure Diag.BALLERR)) := by
  have hd8 : ∀ c ∈ ds, isdigitIn 8 c = true := by rw [isdigitIn_eight]; exact hd
  constructor
  · intro hv
    simp only [setball, strtol_digits hne hd8]
    by_cases hbig : (numeralValue 8 ds : Int) > LONG_MAX
    · simp [hbig]
    · have : UCHAR_MAX < (numeralValue 8 ds : Int) := by simp only [UCHAR_MAX]; omega
      simp [hbig, this]
  · intro hv
    simp only [setball, strtol_neg_digits hne hd8]
    by_cases hsmall : -(numeralValue 8 ds : Int) < LONG_MIN
    · simp [hsmall]
    · have : -(numeralValue 8 ds : Int) < 0 := by omega
      simp [hsmall, this]

/-- Case `p` dies on a negative number. -/
theorem setpause_rejects (opt : Options) {ds : List Nat} (hne : ds ≠ [])
    (hd : ∀ c ∈ ds, isdigitIn 10 c = true) (hv : 0 < numeralValue 10 ds) :
    setpause opt (45 :: ds) = Except.error (Exit.failure Diag.PAUSEERR) := by
  simp only [setpause, strtol_neg_digits hne hd]
  by_cases hsmall : -(numeralValue 10 ds : Int) < LONG_MIN
  · simp [hsmall]
  · have : -(numeralValue 10 ds : Int) < 0 := by omega
    simp [hsmall, this]

/-- Option `-b` with the value `v`, in the next argument or in the same one,
dies whenever case `b` does. -/
theorem argloop_ball_dies (opt : Options) {v : List Nat} (rest : List (List Nat))
    (hne : v ≠ []) (h : setball opt v = Except.error (Exit.failure Diag.BALLERR)) :
    argloop opt Pending.nothing ([45, 98] :: v :: rest)
      = Except.error (Exit.failure Diag.BALLERR)
    ∧ argloop opt Pending.nothing ((45 :: 98 :: v) :: rest)
      = Except.error (Exit.failure Diag.BALLERR) := by
  obtain ⟨c, t, rfl⟩ := List.exists_cons_of_ne_nil hne
  constructor
  · simp [argloop, mergedarg, h]
  · simp [argloop, mergedarg, h, Except.map]

/-- Option `-p` with the value `v`, in the next argument or in the same one,
dies whenever case `p` does. -/
theorem argloop_pause_dies (opt : Options) {v : List Nat} (rest : List (List Nat))
    (hne : v ≠ []) (h : setpause opt v = Except.error (Exit.failure Diag.PAUSEERR)) :
    argloop opt Pending.nothing ([45, 112] :: v :: rest)
      = Except.error (Exit.failure Diag.PAUSEERR)
    ∧ argloop opt Pending.nothing ((45 :: 112 :: v) :: rest)
      = Except.error (Exit.failure Diag.PAUSEERR) := by
  obtain ⟨c, t, rfl⟩ := List.exists_cons_of_ne_nil hne
  constructor
  · simp [argloop, mergedarg, h]
  · simp [argloop, mergedarg, h, Except.map]

/-- The initial options are in range when the compiled-in defaults are. -/
theorem inRange_optInit {cfg : Config}
    (hball : 0 ≤ cfg.defaultball ∧ cfg.defaultball ≤ UCHAR_MAX)
    (hpause : 0 ≤ cfg.defaultpause ∧ cfg.defaultpause ≤ UINT_MAX) : inRange (optInit cfg) :=
  ⟨hball.1, hball.2, hpause.1, hpause.2⟩

/-- C15: with compiled-in defaults in range, whenever `parsecmdargs` returns
the configuration has `0 <= ball <= 255` and `0 <= pause <= UINT_MAX`, the hole
name is set (to the default when option `-h` is absent) and the partition is
set.  And wherever the option loop meets `-b` with an octal number above 0377 or
a negative one, or `-p` with a negative number, in the next argument or in the
same one, the process exits with failure. -/
theorem parsecmdargs_configuration (cfg : Config) (argv : List (List Nat)) (o : Options)
    (hball : 0 ≤ cfg.defaultball ∧ cfg.defaultball ≤ UCHAR_MAX)
    (hpause : 0 ≤ cfg.defaultpause ∧ cfg.defaultpause ≤ UINT_MAX)
    (h : parsecmdargs cfg argv = Except.ok o) :
    (0 ≤ o.ball ∧ o.ball ≤ 255)
    ∧ (0 ≤ o.pause ∧ o.pause ≤ UINT_MAX)
    ∧ (∃ hole, o.hole = some hole)
    ∧ (holeAbsent argv.tail → o.hole = some cfg.defaulthole)
    ∧ (∃ p, o.part = some p)
    ∧ (∀ (opt : Options) (ds : List Nat) (rest : List (List Nat)),
        ds ≠ [] → (∀ c ∈ ds, isOctal c = true) →
        (255 < numeralValue 8 ds →
          argloop opt Pending.nothing ([45, 98] :: ds :: rest)
            = Except.error (Exit.failure Diag.BALLERR)
          ∧ argloop opt Pending.nothing ((45 :: 98 :: ds) :: rest)
            = Except.error (Exit.failure Diag.BALLERR))
        ∧ (0 < numeralValue 8 ds →
          argloop opt Pending.nothing ([45, 98] :: (45 :: ds) :: rest)
            = Except.error (Exit.failure Diag.BALLERR)
          ∧ argloop opt Pending.nothing ((45 :: 98 :: 45 :: ds) :: rest)
            = Except.error (Exit.failure Diag.BALLERR)))
    ∧ (∀ (opt : Options) (ds : List Nat) (rest : List (List Nat)),
        ds ≠ [] → (∀ c ∈ ds, isdigitIn 10 c = true) → 0 < numeralValue 10 ds →
        argloop opt Pending.nothing ([45, 112] :: (45 :: ds) :: rest)
          = Except.error (Exit.failure Diag.PAUSEERR)
        ∧ argloop opt Pending.nothing ((45 :: 112 :: 45 :: ds) :: rest)
          = Except.error (Exit.failure Diag.PAUSEERR)) := by
  obtain ⟨opt, hloop, hcheck⟩ := loop_of_parsecmdargs h
  obtain ⟨hr, hh⟩ := argloop_keeps _ _ _ _ hloop
  obtain ⟨hb, hp, hpart, hne, hhole⟩ := checkargs_keeps hcheck
  have hrange := hr (inRange_optInit hball hpause)
  refine ⟨?_, ?_, ⟨_, hhole⟩, ?_, ?_, ?_, ?_⟩
  · rw [hb]; exact ⟨hrange.1, by simpa [UCHAR_MAX] using hrange.2.1⟩
  · rw [hp]; exact ⟨hrange.2.2.1, hrange.2.2.2⟩
  · intro habs
    have : opt.hole = none := by rw [hh habs (by simp)]; rfl
    rw [hhole, this]; rfl
  · cases hx : opt.part with
    | none => exact absurd hx hne
    | some p => exact ⟨p, by rw [hpart, hx]⟩
  · intro opt2 ds rest hds hoct
    exact ⟨fun hv => argloop_ball_dies opt2 rest hds ((setball_rejects opt2 hds hoct).1 hv),
      fun hv => argloop_ball_dies opt2 rest (by simp)
        ((setball_rejects opt2 hds hoct).2 hv)⟩
  · intro opt2 ds rest hds hdec hv
    exact argloop_pause_dies opt2 rest (by simp) (setpause_rejects opt2 hds hdec hv)

/-- Witness of C15: ball and pause given, no `-h`; and the values 0400 for `-b`
and -1 for `-p`. -/
theorem parsecmdargs_configuration_witness :
    ((0 : Int) ≤ 0 ∧ (0 : Int) ≤ UCHAR_MAX) ∧ ((0 : Int) ≤ 5 ∧ (5 : Int) ≤ UINT_MAX)
    ∧ holeAbsent [bytes "-vb", bytes "102", bytes "-p3", bytes "sda1"]
    ∧ (∃ o, parsecmdargs ⟨0, bytes "hole", 5⟩
          [bytes "dribble", bytes "-vb", bytes "102", bytes "-p3", bytes "sda1"] = Except.ok o
        ∧ (0 ≤ o.ball ∧ o.ball ≤ 255) ∧ (0 ≤ o.pause ∧ o.pause ≤ UINT_MAX)
        ∧ o.hole = some (bytes "hole"))
    ∧ parsecmdargs ⟨0, bytes "hole", 5⟩
        [bytes "dribble", bytes "-b", bytes "400", bytes "sda1"]
      = Except.error (Exit.failure Diag.BALLERR)
    ∧ parsecmdargs ⟨0, bytes "hole", 5⟩ [bytes "dribble", bytes "-p-1", bytes "sda1"]
      = Except.error (Exit.failure Diag.PAUSEERR) :=
  have h := parsecmdargs_configuration ⟨0, bytes "hole", 5⟩
    [bytes "dribble", bytes "-vb", bytes "102", bytes "-p3", bytes "sda1"]
    { ball := 66, hole := some (bytes "hole"), part := some (bytes "sda1"),
      uuidpath := none, label := bytes "/dev/sda1", pause := 3, useuuid := false,
      daemonize := false, verbose := true }
    (by decide) (by decide) rfl
  ⟨by decide, by decide, by decide,
    ⟨_, rfl, h.1, h.2.1, h.2.2.2.1 (by decide)⟩,
    by
      have hb := (h.2.2.2.2.2.1 (optInit ⟨0, bytes "hole", 5⟩) (bytes "400")
        [bytes "sda1"] (by decide) (by decide)).1 (by decide)
      simp only [parsecmdargs, List.tail_cons]
      rw [show bytes "-b" = [45, 98] from rfl, hb.1],
    by
      have hp := h.2.2.2.2.2.2 (optInit ⟨0, bytes "hole", 5⟩) (bytes "1")
        [bytes "sda1"] (by decide) (by decide) (by decide)
      simp only [parsecmdargs, List.tail_cons]
      rw [show bytes "-p-1" = 45 :: 112 :: 45 :: bytes "1" from rfl, hp.2]⟩

end Dribble
